import Mathlib

/-!
Shallow embedding of the order matching engine in `src/lib/orderMatcher.ts`
(class `OrderMatcher`), together with proofs of the specification claims.

Modelling conventions:
* JavaScript numbers are modelled as `ℚ` (every arithmetic operation the
  engine performs — `min`, `+`, `-`, `/ 2`, comparisons — is exact on the
  inputs the engine is specified for).
* `Date.now()` is modelled as an explicit parameter `now : ℤ`.
* JavaScript object identity: `this.orders` holds distinct heap objects which
  the matcher mutates in place and removes with identity/id filters. Each
  resting order therefore carries a ghost tag `ℕ` (allocated from `nextTag`),
  standing for the object's heap identity. The tag is invisible to the
  algorithm's comparisons, which only ever read `Order` fields.
* `Array.prototype.sort` is stable (ES2019), modelled by `List.insertionSort`.
-/

namespace Exchange

inductive Side where
  | buy
  | sell
  deriving DecidableEq

inductive OrderType where
  | market
  | limit
  deriving DecidableEq

/-- `Order` from `src/types/index.ts`. -/
structure Order where
  id : String
  price : ℚ
  quantity : ℚ
  side : Side
  type : OrderType
  timestamp : ℤ
  deriving DecidableEq

/-- `Trade` from `src/types/index.ts`; `buyer`/`seller` are optional in the
interface but always set by the matcher, so they are plain `String` here. -/
structure Trade where
  id : String
  price : ℚ
  quantity : ℚ
  side : Side
  timestamp : ℤ
  buyer : String
  seller : String
  deriving DecidableEq

/-- `OrderBookLevel` from `src/types/index.ts`. -/
structure OrderBookLevel where
  price : ℚ
  quantity : ℚ
  total : ℚ
  count : ℕ
  deriving DecidableEq

/-- `OrderBook` from `src/types/index.ts`. -/
structure OrderBook where
  bids : List OrderBookLevel
  asks : List OrderBookLevel
  midPrice : ℚ
  spread : ℚ
  deriving DecidableEq

/-- A resting order together with its ghost heap tag. -/
abbrev TaggedOrder := ℕ × Order

/-- The private state of class `OrderMatcher`: `orders`, `trades`,
`sequenceId`, plus the ghost allocation counter for object tags. -/
structure OrderMatcher where
  orders : List TaggedOrder
  trades : List Trade
  sequenceId : ℕ
  nextTag : ℕ
  deriving DecidableEq

/-- `order.side === 'buy' ? 'sell' : 'buy'`. -/
def Side.opp : Side → Side
  | .buy => .sell
  | .sell => .buy

/-- The comparator passed to `.sort` in `matchMarketOrder`/`matchLimitOrder`:
for a buying taker ascending resting price, for a selling taker descending. -/
def takerBefore (s : Side) (a b : TaggedOrder) : Prop :=
  match s with
  | .buy => a.2.price ≤ b.2.price
  | .sell => b.2.price ≤ a.2.price

instance (s : Side) : DecidableRel (takerBefore s) := fun a b =>
  match s with
  | .buy => inferInstanceAs (Decidable (a.2.price ≤ b.2.price))
  | .sell => inferInstanceAs (Decidable (b.2.price ≤ a.2.price))

instance (s : Side) : IsTotal TaggedOrder (takerBefore s) :=
  ⟨fun a b => by cases s <;> exact le_total _ _⟩

instance (s : Side) : IsTrans TaggedOrder (takerBefore s) :=
  ⟨fun a b c hab hbc => by
    cases s <;> simp only [takerBefore] at *
    · exact le_trans hab hbc
    · exact le_trans hbc hab⟩

/-- The trade record built in the body of the matching loop. -/
def mkTrade (seq : ℕ) (now : ℤ) (taker maker : Order) (tq : ℚ) : Trade :=
  { id := "trade_" ++ toString seq
    price := maker.price
    quantity := tq
    side := taker.side
    timestamp := now
    buyer := if taker.side = .buy then taker.id else maker.id
    seller := if taker.side = .sell then taker.id else maker.id }

/-- One loop iteration's effect on `this.orders`: the matched object's
`quantity` field is set to `newQty` (a no-op if the object is no longer in the
array), and, when `newQty ≤ 0`, `this.orders = this.orders.filter(o => o.id
!== opposingOrder.id)`. -/
def applyStep (book : List TaggedOrder) (tag : ℕ) (newQty : ℚ) (oid : String) :
    List TaggedOrder :=
  let book' := book.map fun e =>
    if e.1 = tag then (e.1, { e.2 with quantity := newQty }) else e
  if newQty ≤ 0 then book'.filter fun e => decide (e.2.id ≠ oid) else book'

/-- Result of the `for (const opposingOrder of opposingOrders)` loop. -/
structure LoopResult where
  newTrades : List Trade
  remainingQuantity : ℚ
  sequenceId : ℕ
  orders : List TaggedOrder
  deriving DecidableEq

/-- The matching loop shared by `matchMarketOrder` and `matchLimitOrder`:
walk the pre-sorted snapshot `el`; stop when the remaining quantity is ≤ 0;
otherwise trade `min(remaining, resting quantity)` at the resting price,
decrement both sides and drop the resting order from the book if filled. -/
def matchLoop (taker : Order) (now : ℤ) :
    List TaggedOrder → ℚ → ℕ → List TaggedOrder → LoopResult
  | [], rem, seq, book => ⟨[], rem, seq, book⟩
  | e :: rest, rem, seq, book =>
    if rem ≤ 0 then ⟨[], rem, seq, book⟩
    else
      let tq := min rem e.2.quantity
      let t := mkTrade seq now taker e.2 tq
      let book' := applyStep book e.1 (e.2.quantity - tq) e.2.id
      let res := matchLoop taker now rest (rem - tq) (seq + 1) book'
      ⟨t :: res.newTrades, res.remainingQuantity, res.sequenceId, res.orders⟩

/-- Result of `matchMarketOrder`/`matchLimitOrder` together with the state
they mutate (`this.orders`, `this.sequenceId`). -/
structure MatchResult where
  newTrades : List Trade
  remainingOrder : Option Order
  orders : List TaggedOrder
  sequenceId : ℕ
  deriving DecidableEq

/-- Eligibility filter of `matchMarketOrder`: opposing side, any price. -/
def marketEligible (o : Order) (e : TaggedOrder) : Bool :=
  decide (e.2.side = o.side.opp)

/-- Eligibility filter of `matchLimitOrder`: opposing side and price at or
better than the incoming limit. -/
def limitEligible (o : Order) (e : TaggedOrder) : Bool :=
  decide (e.2.side = o.side.opp) &&
    (match o.side with
     | .buy => decide (e.2.price ≤ o.price)
     | .sell => decide (o.price ≤ e.2.price))

/-- `OrderMatcher.matchMarketOrder`. An unfilled market remainder is
discarded (`return remainingQuantity > 0 ? null : null`). -/
def matchMarketOrder (st : OrderMatcher) (o : Order) (now : ℤ) : MatchResult :=
  let opposing := st.orders.filter (marketEligible o)
  let sorted := List.insertionSort (takerBefore o.side) opposing
  let res := matchLoop o now sorted o.quantity st.sequenceId st.orders
  ⟨res.newTrades, none, res.orders, res.sequenceId⟩

/-- `OrderMatcher.matchLimitOrder`. A strictly positive leftover becomes the
returned remainder `{...order, quantity: remainingQuantity}`. -/
def matchLimitOrder (st : OrderMatcher) (o : Order) (now : ℤ) : MatchResult :=
  let opposing := st.orders.filter (limitEligible o)
  let sorted := List.insertionSort (takerBefore o.side) opposing
  let res := matchLoop o now sorted o.quantity st.sequenceId st.orders
  let remaining : Option Order :=
    if 0 < res.remainingQuantity then some { o with quantity := res.remainingQuantity }
    else none
  ⟨res.newTrades, remaining, res.orders, res.sequenceId⟩

/-- `OrderMatcher.addOrder`: dispatch on the order type, push a strictly
positive remainder onto `this.orders` (a fresh object, hence a fresh tag),
append the new trades to `this.trades`, and return both. -/
def addOrder (st : OrderMatcher) (o : Order) (now : ℤ) :
    (List Trade × Option Order) × OrderMatcher :=
  let res := match o.type with
    | .market => matchMarketOrder st o now
    | .limit => matchLimitOrder st o now
  let doPush : Bool := match res.remainingOrder with
    | some r => decide (0 < r.quantity)
    | none => false
  ((res.newTrades, res.remainingOrder),
   { orders :=
       match res.remainingOrder with
       | some r => if 0 < r.quantity then res.orders ++ [(st.nextTag, r)] else res.orders
       | none => res.orders
     trades := st.trades ++ res.newTrades
     sequenceId := res.sequenceId
     nextTag := if doPush then st.nextTag + 1 else st.nextTag })

/-- The insertion-ordered price map built by `aggregateOrdersByPrice`
(JavaScript `Map` iterates keys in first-insertion order): entries are
`(price, summed quantity, contributing order count)`. -/
def insertLevel (m : List (ℚ × ℚ × ℕ)) (o : Order) : List (ℚ × ℚ × ℕ) :=
  if m.any fun e => decide (e.1 = o.price) then
    m.map fun e => if e.1 = o.price then (e.1, e.2.1 + o.quantity, e.2.2 + 1) else e
  else m ++ [(o.price, o.quantity, 1)]

def priceLevels (orders : List Order) : List (ℚ × ℚ × ℕ) :=
  orders.foldl insertLevel []

/-- The level comparator of `aggregateOrdersByPrice`:
bids high-to-low, asks low-to-high. -/
def levelBefore (side : Side) (a b : ℚ × ℚ × ℕ) : Prop :=
  match side with
  | .buy => b.1 ≤ a.1
  | .sell => a.1 ≤ b.1

instance (s : Side) : DecidableRel (levelBefore s) := fun a b =>
  match s with
  | .buy => inferInstanceAs (Decidable (b.1 ≤ a.1))
  | .sell => inferInstanceAs (Decidable (a.1 ≤ b.1))

instance (s : Side) : IsTotal (ℚ × ℚ × ℕ) (levelBefore s) :=
  ⟨fun a b => by cases s <;> exact le_total _ _⟩

instance (s : Side) : IsTrans (ℚ × ℚ × ℕ) (levelBefore s) :=
  ⟨fun a b c hab hbc => by
    cases s <;> simp only [levelBefore] at *
    · exact le_trans hbc hab
    · exact le_trans hab hbc⟩

/-- The running-total pass over the sorted levels. -/
def withTotals (acc : ℚ) : List (ℚ × ℚ × ℕ) → List OrderBookLevel
  | [] => []
  | e :: rest =>
      let t := acc + e.2.1
      ⟨e.1, e.2.1, t, e.2.2⟩ :: withTotals t rest

/-- `OrderMatcher.aggregateOrdersByPrice`: group one side's resting orders by
exact price, sort the levels by price, then fill in running totals. -/
def aggregateOrdersByPrice (st : OrderMatcher) (side : Side) : List OrderBookLevel :=
  let sideOrders := (st.orders.map Prod.snd).filter fun o => decide (o.side = side)
  let levels := List.insertionSort (levelBefore side) (priceLevels sideOrders)
  withTotals 0 levels

/-- `OrderMatcher.getOrderBook`. `bids[0]?.price || 0` is 0 when there is no
first level and also when its price is exactly 0 (JavaScript falsiness);
`bestBid && bestAsk` guards the mid-price and spread the same way. -/
def getOrderBook (st : OrderMatcher) : OrderBook :=
  let bids := aggregateOrdersByPrice st .buy
  let asks := aggregateOrdersByPrice st .sell
  let bestBid : ℚ := match bids.head? with | some l => l.price | none => 0
  let bestAsk : ℚ := match asks.head? with | some l => l.price | none => 0
  let midPrice := if bestBid ≠ 0 ∧ bestAsk ≠ 0 then (bestBid + bestAsk) / 2 else 0
  let spread := if bestAsk ≠ 0 ∧ bestBid ≠ 0 then bestAsk - bestBid else 0
  { bids := bids.take 20, asks := asks.take 20, midPrice := midPrice, spread := spread }

/-- `OrderMatcher.getTrades`: the trade log, most recent first. -/
def getTrades (st : OrderMatcher) : List Trade :=
  st.trades.reverse

/-- `OrderMatcher.removeOrder`. -/
def removeOrder (st : OrderMatcher) (oid : String) : Bool × OrderMatcher :=
  let newOrders := st.orders.filter fun e => decide (e.2.id ≠ oid)
  (decide (newOrders.length < st.orders.length), { st with orders := newOrders })

/-- `OrderMatcher.clear`. -/
def clear (st : OrderMatcher) : OrderMatcher :=
  { st with orders := [], trades := [] }

/-- The eligible opposing resting orders, in arrival order, as filtered by
`matchMarketOrder` / `matchLimitOrder` for the given incoming order. -/
def eligibleList (st : OrderMatcher) (o : Order) : List TaggedOrder :=
  match o.type with
  | .market => st.orders.filter (marketEligible o)
  | .limit => st.orders.filter (limitEligible o)

/-- The snapshot array the matching loop walks: the eligible opposing orders
stably sorted by price priority. -/
def consumptionList (st : OrderMatcher) (o : Order) : List TaggedOrder :=
  List.insertionSort (takerBefore o.side) (eligibleList st o)

/-- The identity (order id, price) of the resting maker a trade executed
against, recovered from the trade record given the taker's side. -/
def makerRef (s : Side) (t : Trade) : String × ℚ :=
  (match s with | .buy => t.seller | .sell => t.buyer, t.price)

/-- A trade with its wall-clock timestamp erased. -/
def eraseStamp (t : Trade) : Trade :=
  { t with timestamp := 0 }

/-- The id of the resting maker a trade executed against, recovered from the
trade alone: the trade's `side` field is the taker's side, so the maker is
the counterparty on the other side. -/
def makerId (t : Trade) : String :=
  match t.side with
  | .buy => t.seller
  | .sell => t.buyer

/-- Total quantity of the trades in `ts` executed against the resting order
with id `oid`. -/
def tradedAgainst (ts : List Trade) (oid : String) : ℚ :=
  ((ts.filter fun t => decide (makerId t = oid)).map Trade.quantity).sum

/-- A sequence of submit calls, each with its wall-clock instant. -/
def runSubmits : OrderMatcher → List (Order × ℤ) → OrderMatcher
  | st, [] => st
  | st, op :: ops => runSubmits (addOrder st op.1 op.2).2 ops

/-- All trades generated by a sequence of submit calls, in order. -/
def tradesOfRun : OrderMatcher → List (Order × ℤ) → List Trade
  | _, [] => []
  | st, op :: ops => (addOrder st op.1 op.2).1.1 ++ tradesOfRun (addOrder st op.1 op.2).2 ops

/-! ### Basic properties of the matching loop -/

theorem makerRef_mkTrade (seq : ℕ) (now : ℤ) (taker maker : Order) (tq : ℚ) :
    makerRef taker.side (mkTrade seq now taker maker tq) = (maker.id, maker.price) := by
  cases h : taker.side <;> simp [makerRef, mkTrade, h]

theorem matchLoop_nonpos (taker : Order) (now : ℤ) (el : List TaggedOrder)
    (rem : ℚ) (seq : ℕ) (book : List TaggedOrder) (h : rem ≤ 0) :
    matchLoop taker now el rem seq book = ⟨[], rem, seq, book⟩ := by
  cases el with
  | nil => rfl
  | cons e rest => simp [matchLoop, h]

theorem matchLoop_length_le (taker : Order) (now : ℤ) :
    ∀ (el : List TaggedOrder) (rem : ℚ) (seq : ℕ) (book : List TaggedOrder),
      (matchLoop taker now el rem seq book).newTrades.length ≤ el.length := by
  intro el
  induction el with
  | nil => intro rem seq book; simp [matchLoop]
  | cons e rest ih =>
    intro rem seq book
    by_cases h : rem ≤ 0
    · simp [matchLoop, h]
    · simp only [matchLoop, if_neg h, List.length_cons]
      exact Nat.succ_le_succ (ih _ _ _)

theorem matchLoop_seq_eq (taker : Order) (now : ℤ) :
    ∀ (el : List TaggedOrder) (rem : ℚ) (seq : ℕ) (book : List TaggedOrder),
      (matchLoop taker now el rem seq book).sequenceId
        = seq + (matchLoop taker now el rem seq book).newTrades.length := by
  intro el
  induction el with
  | nil => intro rem seq book; simp [matchLoop]
  | cons e rest ih =>
    intro rem seq book
    by_cases h : rem ≤ 0
    · simp [matchLoop, h]
    · simp only [matchLoop, if_neg h, List.length_cons]
      rw [ih]
      omega

theorem matchLoop_trade_shape (taker : Order) (now : ℤ) :
    ∀ (el : List TaggedOrder) (rem : ℚ) (seq : ℕ) (book : List TaggedOrder),
      ∀ t ∈ (matchLoop taker now el rem seq book).newTrades,
        ∃ e ∈ el, ∃ q s, t = mkTrade s now taker e.2 q := by
  intro el
  induction el with
  | nil => intro rem seq book t ht; simp [matchLoop] at ht
  | cons e rest ih =>
    intro rem seq book t ht
    by_cases h : rem ≤ 0
    · simp [matchLoop, h] at ht
    · simp only [matchLoop, if_neg h, List.mem_cons] at ht
      rcases ht with rfl | ht
      · exact ⟨e, List.mem_cons_self e rest, _, _, rfl⟩
      · obtain ⟨e', he', q, s, rfl⟩ := ih _ _ _ t ht
        exact ⟨e', List.mem_cons_of_mem _ he', q, s, rfl⟩

theorem matchLoop_makers (taker : Order) (now : ℤ) :
    ∀ (el : List TaggedOrder) (rem : ℚ) (seq : ℕ) (book : List TaggedOrder),
      (matchLoop taker now el rem seq book).newTrades.map (makerRef taker.side)
        = (el.take (matchLoop taker now el rem seq book).newTrades.length).map
            (fun e => (e.2.id, e.2.price)) := by
  intro el
  induction el with
  | nil => intro rem seq book; simp [matchLoop]
  | cons e rest ih =>
    intro rem seq book
    by_cases h : rem ≤ 0
    · simp [matchLoop, h]
    · simp only [matchLoop, if_neg h, List.map_cons, List.length_cons, List.take_succ_cons]
      rw [makerRef_mkTrade, ih]

theorem matchLoop_trade_id (taker : Order) (now : ℤ) :
    ∀ (el : List TaggedOrder) (rem : ℚ) (seq : ℕ) (book : List TaggedOrder) (i : ℕ) (t : Trade),
      (matchLoop taker now el rem seq book).newTrades[i]? = some t →
      t.id = "trade_" ++ toString (seq + i) := by
  intro el
  induction el with
  | nil => intro rem seq book i t ht; simp [matchLoop] at ht
  | cons e rest ih =>
    intro rem seq book i t ht
    by_cases h : rem ≤ 0
    · simp [matchLoop, h] at ht
    · simp only [matchLoop, if_neg h] at ht
      cases i with
      | zero =>
        simp only [List.getElem?_cons_zero, Option.some_inj] at ht
        subst ht
        simp [mkTrade]
      | succ i =>
        simp only [List.getElem?_cons_succ] at ht
        have := ih _ _ _ i t ht
        rw [this]
        congr 2
        omega

theorem matchLoop_qty (taker : Order) (now : ℤ) :
    ∀ (el : List TaggedOrder) (rem : ℚ) (seq : ℕ) (book : List TaggedOrder) (i : ℕ)
      (t : Trade) (e : TaggedOrder),
      (matchLoop taker now el rem seq book).newTrades[i]? = some t →
      el[i]? = some e →
      t.quantity
        = min (rem - (((matchLoop taker now el rem seq book).newTrades.take i).map
            Trade.quantity).sum) e.2.quantity := by
  intro el
  induction el with
  | nil => intro rem seq book i t e ht _; simp [matchLoop] at ht
  | cons hd rest ih =>
    intro rem seq book i t e ht he
    by_cases h : rem ≤ 0
    · simp [matchLoop, h] at ht
    · simp only [matchLoop, if_neg h] at ht ⊢
      cases i with
      | zero =>
        simp only [List.getElem?_cons_zero, Option.some_inj] at ht he
        subst ht; subst he
        simp [mkTrade]
      | succ i =>
        simp only [List.getElem?_cons_succ] at ht he
        have := ih _ _ _ i t e ht he
        rw [List.take_succ_cons, List.map_cons, List.sum_cons, this]
        congr 1
        simp only [mkTrade]
        ring

/-! ### Stability of the sort

`Array.prototype.sort` is stable, and so is `List.insertionSort`: filtering
the sorted list down to any one key class reproduces that class in its
original (arrival) order. -/

theorem filter_orderedInsert_of_pos {α : Type} (r : α → α → Prop) [DecidableRel r]
    (p : α → Bool) (a : α) (l : List α) (ha : p a = true)
    (h : ∀ b ∈ l, p b = true → r a b) :
    (l.orderedInsert r a).filter p = a :: l.filter p := by
  induction l with
  | nil => simp [List.orderedInsert, ha]
  | cons b l ih =>
    by_cases hrab : r a b
    · simp [List.orderedInsert, if_pos hrab, List.filter_cons, ha]
    · have hpb : p b = false := by
        cases hpb : p b
        · rfl
        · exact absurd (h b (List.mem_cons_self b l) hpb) hrab
      have ih' := ih fun c hc hpc => h c (List.mem_cons_of_mem _ hc) hpc
      simp [List.orderedInsert, if_neg hrab, List.filter_cons, hpb, ih']

theorem filter_orderedInsert_of_neg {α : Type} (r : α → α → Prop) [DecidableRel r]
    (p : α → Bool) (a : α) (l : List α) (ha : p a = false) :
    (l.orderedInsert r a).filter p = l.filter p := by
  induction l with
  | nil => simp [List.orderedInsert, ha]
  | cons b l ih =>
    by_cases hrab : r a b
    · simp [List.orderedInsert, if_pos hrab, List.filter_cons, ha]
    · simp [List.orderedInsert, if_neg hrab, List.filter_cons, ih]

theorem filter_insertionSort {α : Type} (r : α → α → Prop) [DecidableRel r]
    (p : α → Bool) (hp : ∀ a b, p a = true → p b = true → r a b) :
    ∀ l : List α, (List.insertionSort r l).filter p = l.filter p := by
  intro l
  induction l with
  | nil => rfl
  | cons a l ih =>
    show ((List.insertionSort r l).orderedInsert r a).filter p = _
    by_cases hpa : p a
    · rw [filter_orderedInsert_of_pos r p a _ hpa fun b _ hb => hp a b hpa hb, ih,
        List.filter_cons_of_pos hpa]
    · have hpa' : p a = false := by simp only [Bool.not_eq_true] at hpa; exact hpa
      rw [filter_orderedInsert_of_neg r p a _ hpa', ih, List.filter_cons_of_neg]
      simp [hpa']

/-! ### The matched quantity never exceeds a maker's resting quantity -/

theorem matchLoop_maker_mem (taker : Order) (now : ℤ)
    (el : List TaggedOrder) (rem : ℚ) (seq : ℕ) (book : List TaggedOrder)
    (t : Trade) (ht : t ∈ (matchLoop taker now el rem seq book).newTrades) :
    (makerRef taker.side t).1 ∈ el.map fun e => e.2.id := by
  obtain ⟨e, he, q, s, rfl⟩ := matchLoop_trade_shape taker now el rem seq book t ht
  rw [makerRef_mkTrade]
  exact List.mem_map_of_mem _ he

theorem matchLoop_maker_sum (taker : Order) (now : ℤ) :
    ∀ (el : List TaggedOrder) (rem : ℚ) (seq : ℕ) (book : List TaggedOrder),
      (el.map fun e => e.2.id).Nodup →
      (∀ e ∈ el, 0 ≤ e.2.quantity) →
      ∀ e ∈ el,
        (((matchLoop taker now el rem seq book).newTrades.filter
            fun t => decide ((makerRef taker.side t).1 = e.2.id)).map Trade.quantity).sum
          ≤ e.2.quantity := by
  intro el
  induction el with
  | nil => intro rem seq book _ _ e he; simp at he
  | cons hd rest ih =>
    intro rem seq book hnd hq e he
    have hndrest : (rest.map fun e => e.2.id).Nodup := (List.nodup_cons.mp hnd).2
    have hhd : hd.2.id ∉ rest.map fun e => e.2.id := (List.nodup_cons.mp hnd).1
    by_cases h : rem ≤ 0
    · rw [matchLoop_nonpos taker now _ rem seq book h]
      simp only [List.filter_nil, List.map_nil, List.sum_nil]
      exact hq e he
    · simp only [matchLoop, if_neg h]
      rcases List.mem_cons.mp he with rfl | herest
      · have hrest : ((matchLoop taker now rest (rem - min rem e.2.quantity) (seq + 1)
            (applyStep book e.1 (e.2.quantity - min rem e.2.quantity) e.2.id)).newTrades.filter
              fun t => decide ((makerRef taker.side t).1 = e.2.id)) = [] := by
          rw [List.filter_eq_nil_iff]
          intro t ht
          have := matchLoop_maker_mem taker now _ _ _ _ t ht
          simp only [decide_eq_true_eq]
          intro hcontra
          rw [hcontra] at this
          exact hhd this
        simp only [List.filter_cons, makerRef_mkTrade, decide_eq_true_eq, if_pos rfl, hrest]
        simp only [decide_True, if_true, List.map_cons, List.map_nil, List.sum_cons,
          List.sum_nil, add_zero]
        simp [mkTrade, min_le_right]
      · have hne : hd.2.id ≠ e.2.id := by
          intro hcontra
          exact hhd (hcontra ▸ List.mem_map_of_mem _ herest)
        have step : ((mkTrade seq now taker hd.2 (min rem hd.2.quantity)) ::
            (matchLoop taker now rest (rem - min rem hd.2.quantity) (seq + 1)
              (applyStep book hd.1 (hd.2.quantity - min rem hd.2.quantity) hd.2.id)).newTrades).filter
              (fun t => decide ((makerRef taker.side t).1 = e.2.id))
            = ((matchLoop taker now rest (rem - min rem hd.2.quantity) (seq + 1)
              (applyStep book hd.1 (hd.2.quantity - min rem hd.2.quantity) hd.2.id)).newTrades).filter
              (fun t => decide ((makerRef taker.side t).1 = e.2.id)) := by
          rw [List.filter_cons_of_neg]
          simp [makerRef_mkTrade, hne]
        rw [step]
        exact ih _ _ _ hndrest (fun x hx => hq x (List.mem_cons_of_mem _ hx)) e herest

/-! ### How a matching step rewrites the resting book -/

theorem applyStep_fst_sublist (book : List TaggedOrder) (tag : ℕ) (q : ℚ) (oid : String) :
    ((applyStep book tag q oid).map Prod.fst).Sublist (book.map Prod.fst) := by
  have hmap : (book.map fun e =>
      if e.1 = tag then (e.1, { e.2 with quantity := q }) else e).map Prod.fst
      = book.map Prod.fst := by
    rw [List.map_map]
    apply List.map_congr_left
    intro e _
    by_cases h : e.1 = tag <;> simp [h]
  simp only [applyStep]
  by_cases h : q ≤ 0
  · rw [if_pos h]
    have hsub := (List.filter_sublist
        (l := book.map fun e =>
          if e.1 = tag then (e.1, { e.2 with quantity := q }) else e)
        (p := fun e => decide (e.2.id ≠ oid))).map Prod.fst
    rw [hmap] at hsub
    exact hsub
  · rw [if_neg h, hmap]

theorem mem_applyStep (book : List TaggedOrder) (tag : ℕ) (q : ℚ) (oid : String)
    (b' : TaggedOrder) (h : b' ∈ applyStep book tag q oid) :
    ∃ b ∈ book, b'.1 = b.1 ∧ b'.2.id = b.2.id ∧
      (b' = b ∨ (b.1 = tag ∧ b'.2 = { b.2 with quantity := q })) ∧
      (q ≤ 0 → b'.2.id ≠ oid) := by
  unfold applyStep at h
  by_cases hq : q ≤ 0
  · simp only [if_pos hq, List.mem_filter, List.mem_map, decide_eq_true_eq] at h
    obtain ⟨⟨b, hb, hb'⟩, hid⟩ := h
    refine ⟨b, hb, ?_, ?_, ?_, fun _ => hid⟩
    · subst hb'; by_cases h1 : b.1 = tag <;> simp [h1]
    · subst hb'; by_cases h1 : b.1 = tag <;> simp [h1]
    · subst hb'
      by_cases h1 : b.1 = tag
      · right; exact ⟨h1, by simp [h1]⟩
      · left; simp [h1]
  · simp only [if_neg hq, List.mem_map] at h
    obtain ⟨b, hb, hb'⟩ := h
    refine ⟨b, hb, ?_, ?_, ?_, fun hc => absurd hc hq⟩
    · subst hb'; by_cases h1 : b.1 = tag <;> simp [h1]
    · subst hb'; by_cases h1 : b.1 = tag <;> simp [h1]
    · subst hb'
      by_cases h1 : b.1 = tag
      · right; exact ⟨h1, by simp [h1]⟩
      · left; simp [h1]

theorem matchLoop_fst_sublist (taker : Order) (now : ℤ) :
    ∀ (el : List TaggedOrder) (rem : ℚ) (seq : ℕ) (book : List TaggedOrder),
    ((matchLoop taker now el rem seq book).orders.map Prod.fst).Sublist
      (book.map Prod.fst) := by
  intro el
  induction el with
  | nil => intro rem seq book; simp [matchLoop]
  | cons e rest ih =>
    intro rem seq book
    by_cases h : rem ≤ 0
    · simp [matchLoop, h]
    · simp only [matchLoop, if_neg h]
      exact (ih _ _ _).trans (applyStep_fst_sublist _ _ _ _)

/-- The matching loop never leaves a non-positive quantity resting: the
object it decrements is removed (by its id) as soon as its quantity drops to
zero or below. The third hypothesis is heap coherence: a book entry with the
tag of an eligible snapshot element carries that element's id. -/
theorem matchLoop_book_pos (taker : Order) (now : ℤ) :
    ∀ (el : List TaggedOrder) (rem : ℚ) (seq : ℕ) (book : List TaggedOrder),
      (∀ b ∈ book, 0 < b.2.quantity) →
      (∀ x ∈ el, ∀ b ∈ book, b.1 = x.1 → b.2.id = x.2.id) →
      ∀ b ∈ (matchLoop taker now el rem seq book).orders, 0 < b.2.quantity := by
  intro el
  induction el with
  | nil => intro rem seq book hpos _ b hb; exact hpos b hb
  | cons hd rest ih =>
    intro rem seq book hpos hcoh b hb
    by_cases h : rem ≤ 0
    · rw [matchLoop_nonpos taker now _ rem seq book h] at hb
      exact hpos b hb
    · simp only [matchLoop, if_neg h] at hb
      set q' : ℚ := hd.2.quantity - min rem hd.2.quantity with hq'
      refine ih _ _ _ ?_ ?_ b hb
      · intro b' hb'
        obtain ⟨b0, hb0, _, hid, hcase, hneg⟩ := mem_applyStep book hd.1 q' hd.2.id b' hb'
        rcases hcase with rfl | ⟨htag, hupd⟩
        · exact hpos _ hb0
        · by_cases hq : q' ≤ 0
          · exact absurd (hid.trans (hcoh hd (List.mem_cons_self hd rest) b0 hb0 htag))
              (hneg hq)
          · rw [hupd]; exact lt_of_not_le hq
      · intro x hx b' hb' htag'
        obtain ⟨b0, hb0, hfst, hid, _, _⟩ := mem_applyStep book hd.1 q' hd.2.id b' hb'
        rw [hid]
        exact hcoh x (List.mem_cons_of_mem _ hx) b0 hb0 (hfst ▸ htag')

/-! ### `addOrder` in terms of the loop over the consumption list -/

theorem addOrder_trades_eq (st : OrderMatcher) (o : Order) (now : ℤ) :
    (addOrder st o now).1.1
      = (matchLoop o now (consumptionList st o) o.quantity st.sequenceId st.orders).newTrades := by
  cases h : o.type <;>
    simp [addOrder, matchMarketOrder, matchLimitOrder, consumptionList, eligibleList, h]

theorem addOrder_log_eq (st : OrderMatcher) (o : Order) (now : ℤ) :
    (addOrder st o now).2.trades = st.trades ++ (addOrder st o now).1.1 := by
  cases h : o.type <;>
    simp [addOrder, matchMarketOrder, matchLimitOrder, h]

theorem addOrder_seq_eq (st : OrderMatcher) (o : Order) (now : ℤ) :
    (addOrder st o now).2.sequenceId
      = (matchLoop o now (consumptionList st o) o.quantity st.sequenceId st.orders).sequenceId := by
  cases h : o.type <;>
    simp [addOrder, matchMarketOrder, matchLimitOrder, consumptionList, eligibleList, h]

theorem addOrder_remaining_market (st : OrderMatcher) (o : Order) (now : ℤ)
    (h : o.type = .market) :
    (addOrder st o now).1.2 = none := by
  simp [addOrder, matchMarketOrder, h]

theorem addOrder_remaining_limit (st : OrderMatcher) (o : Order) (now : ℤ)
    (h : o.type = .limit) :
    (addOrder st o now).1.2
      = (if 0 < (matchLoop o now (consumptionList st o) o.quantity st.sequenceId
            st.orders).remainingQuantity
         then some { o with quantity :=
            (matchLoop o now (consumptionList st o) o.quantity st.sequenceId
              st.orders).remainingQuantity }
         else none) := by
  simp [addOrder, matchLimitOrder, consumptionList, eligibleList, h]

theorem addOrder_orders_market (st : OrderMatcher) (o : Order) (now : ℤ)
    (h : o.type = .market) :
    (addOrder st o now).2.orders
      = (matchLoop o now (consumptionList st o) o.quantity st.sequenceId st.orders).orders := by
  simp [addOrder, matchMarketOrder, consumptionList, eligibleList, h]

theorem addOrder_orders_limit (st : OrderMatcher) (o : Order) (now : ℤ)
    (h : o.type = .limit) :
    (addOrder st o now).2.orders
      = (if 0 < (matchLoop o now (consumptionList st o) o.quantity st.sequenceId
            st.orders).remainingQuantity
         then (matchLoop o now (consumptionList st o) o.quantity st.sequenceId
            st.orders).orders
              ++ [(st.nextTag, { o with quantity :=
                  (matchLoop o now (consumptionList st o) o.quantity st.sequenceId
                    st.orders).remainingQuantity })]
         else (matchLoop o now (consumptionList st o) o.quantity st.sequenceId
            st.orders).orders) := by
  simp only [consumptionList, eligibleList, h]
  by_cases hrq : 0 < (matchLoop o now (List.insertionSort (takerBefore o.side)
      (st.orders.filter (limitEligible o))) o.quantity st.sequenceId
      st.orders).remainingQuantity <;>
    simp [addOrder, matchLimitOrder, h, hrq]

theorem mem_eligibleList_of_mem_consumptionList (st : OrderMatcher) (o : Order)
    (e : TaggedOrder) (he : e ∈ consumptionList st o) : e ∈ eligibleList st o :=
  (List.perm_insertionSort (takerBefore o.side) (eligibleList st o)).mem_iff.mp he

theorem mem_orders_of_mem_eligibleList (st : OrderMatcher) (o : Order)
    (e : TaggedOrder) (he : e ∈ eligibleList st o) : e ∈ st.orders := by
  cases hty : o.type <;> simp only [eligibleList, hty] at he <;>
    exact List.mem_of_mem_filter he

theorem opp_side_of_mem_eligibleList (st : OrderMatcher) (o : Order)
    (e : TaggedOrder) (he : e ∈ eligibleList st o) : e.2.side = o.side.opp := by
  cases hty : o.type <;> simp only [eligibleList, hty] at he
  · have := (List.mem_filter.mp he).2
    simpa [marketEligible] using this
  · have := (List.mem_filter.mp he).2
    simp only [limitEligible, Bool.and_eq_true, decide_eq_true_eq] at this
    exact this.1

/-! ### Tracking one resting maker through a call and through a run

The loop decrements the matched resting object's quantity by exactly the
traded amount and removes it (by id) exactly when the result is ≤ 0; chaining
this over successive submit calls bounds the lifetime volume traded against a
resting order by its original quantity. -/

theorem matchLoop_trade_side (taker : Order) (now : ℤ)
    (el : List TaggedOrder) (rem : ℚ) (seq : ℕ) (book : List TaggedOrder)
    (t : Trade) (ht : t ∈ (matchLoop taker now el rem seq book).newTrades) :
    t.side = taker.side := by
  obtain ⟨e, _, q, s, rfl⟩ := matchLoop_trade_shape taker now el rem seq book t ht
  rfl

theorem makerId_eq_makerRef (s : Side) (t : Trade) (h : t.side = s) :
    makerId t = (makerRef s t).1 := by
  cases s <;> simp [makerId, makerRef, h]

theorem addOrder_tradedAgainst (st : OrderMatcher) (o : Order) (now : ℤ) (oid : String) :
    tradedAgainst (addOrder st o now).1.1 oid
      = (((addOrder st o now).1.1.filter
          fun t => decide ((makerRef o.side t).1 = oid)).map Trade.quantity).sum := by
  unfold tradedAgainst
  congr 2
  apply List.filter_congr
  intro t ht
  rw [addOrder_trades_eq] at ht
  rw [makerId_eq_makerRef o.side t (matchLoop_trade_side o now _ _ _ _ t ht)]

theorem applyStep_mem_of_ne (book : List TaggedOrder) (tag : ℕ) (q : ℚ) (oid : String)
    (b : TaggedOrder) (hb : b ∈ book) (ht : b.1 ≠ tag) (hi : b.2.id ≠ oid) :
    b ∈ applyStep book tag q oid := by
  have hmem : b ∈ book.map fun e =>
      if e.1 = tag then (e.1, { e.2 with quantity := q }) else e := by
    have : (if b.1 = tag then (b.1, { b.2 with quantity := q }) else b) = b := if_neg ht
    exact this ▸ List.mem_map_of_mem _ hb
  simp only [applyStep]
  by_cases hq : q ≤ 0
  · rw [if_pos hq]
    exact List.mem_filter.mpr ⟨hmem, by simpa using hi⟩
  · rw [if_neg hq]
    exact hmem

theorem matchLoop_frame (taker : Order) (now : ℤ) :
    ∀ (el : List TaggedOrder) (rem : ℚ) (seq : ℕ) (book : List TaggedOrder)
      (b : TaggedOrder),
      (∀ e ∈ el, e.1 ≠ b.1 ∧ e.2.id ≠ b.2.id) → b ∈ book →
      b ∈ (matchLoop taker now el rem seq book).orders := by
  intro el
  induction el with
  | nil => intro rem seq book b _ hb; exact hb
  | cons e rest ih =>
    intro rem seq book b hS hb
    by_cases h : rem ≤ 0
    · rw [matchLoop_nonpos taker now _ rem seq book h]
      exact hb
    · simp only [matchLoop, if_neg h]
      refine ih _ _ _ b (fun e' he' => hS e' (List.mem_cons_of_mem _ he')) ?_
      have := hS e (List.mem_cons_self e rest)
      exact applyStep_mem_of_ne _ _ _ _ b hb
        (fun hc => this.1 hc.symm) (fun hc => this.2 hc.symm)

theorem matchLoop_orders_descend (taker : Order) (now : ℤ) :
    ∀ (el : List TaggedOrder) (rem : ℚ) (seq : ℕ) (book : List TaggedOrder),
      ∀ b' ∈ (matchLoop taker now el rem seq book).orders,
        ∃ b ∈ book, b'.1 = b.1 ∧ b'.2.id = b.2.id := by
  intro el
  induction el with
  | nil => intro rem seq book b' hb'; exact ⟨b', hb', rfl, rfl⟩
  | cons e rest ih =>
    intro rem seq book b' hb'
    by_cases h : rem ≤ 0
    · rw [matchLoop_nonpos taker now _ rem seq book h] at hb'
      exact ⟨b', hb', rfl, rfl⟩
    · simp only [matchLoop, if_neg h] at hb'
      obtain ⟨b₁, hb₁, hfst, hid⟩ := ih _ _ _ b' hb'
      obtain ⟨b₀, hb₀, hfst₀, hid₀, _, _⟩ := mem_applyStep _ _ _ _ b₁ hb₁
      exact ⟨b₀, hb₀, hfst.trans hfst₀, hid.trans hid₀⟩

theorem addOrder_orders_descend (st : OrderMatcher) (o : Order) (now : ℤ) :
    ∀ b' ∈ (addOrder st o now).2.orders,
      (∃ b ∈ st.orders, b'.1 = b.1 ∧ b'.2.id = b.2.id) ∨
        (b'.1 = st.nextTag ∧ b'.2.id = o.id) := by
  intro b' hb'
  cases hty : o.type
  · rw [addOrder_orders_market st o now hty] at hb'
    exact Or.inl (matchLoop_orders_descend o now _ _ _ _ b' hb')
  · rw [addOrder_orders_limit st o now hty] at hb'
    by_cases hrq : 0 < (matchLoop o now (consumptionList st o) o.quantity st.sequenceId
        st.orders).remainingQuantity
    · rw [if_pos hrq] at hb'
      rcases List.mem_append.mp hb' with hb' | hb'
      · exact Or.inl (matchLoop_orders_descend o now _ _ _ _ b' hb')
      · simp only [List.mem_singleton] at hb'
        subst hb'
        exact Or.inr ⟨rfl, rfl⟩
    · rw [if_neg hrq] at hb'
      exact Or.inl (matchLoop_orders_descend o now _ _ _ _ b' hb')

theorem addOrder_maker_ids (st : OrderMatcher) (o : Order) (now : ℤ)
    (t : Trade) (ht : t ∈ (addOrder st o now).1.1) :
    ∃ b ∈ st.orders, makerId t = b.2.id := by
  rw [addOrder_trades_eq] at ht
  have hside := matchLoop_trade_side o now _ _ _ _ t ht
  have hmem := matchLoop_maker_mem o now _ _ _ _ t ht
  obtain ⟨e, he, hid⟩ := List.mem_map.mp hmem
  refine ⟨e, mem_orders_of_mem_eligibleList st o e
    (mem_eligibleList_of_mem_consumptionList st o e he), ?_⟩
  rw [makerId_eq_makerRef o.side t hside, hid]

theorem consumption_tags_nodup (st : OrderMatcher) (o : Order)
    (htags : (st.orders.map Prod.fst).Nodup) :
    ((consumptionList st o).map Prod.fst).Nodup := by
  have hel : (eligibleList st o).Sublist st.orders := by
    cases hty : o.type <;> simp only [eligibleList, hty] <;> exact List.filter_sublist _
  exact (((List.perm_insertionSort (takerBefore o.side) (eligibleList st o)).map
    Prod.fst).nodup_iff).mpr ((hel.map _).nodup htags)

/-- Walking the loop, the resting object `x` (unique in the book by id and by
tag, and occurring at most once in the snapshot) ends up with its quantity
decreased by exactly the quantity traded against it: still resting with
`quantity - A` when that is positive, removed from the book when it is ≤ 0;
and `A` never exceeds its quantity. -/
theorem matchLoop_maker_update (taker : Order) (now : ℤ) :
    ∀ (el : List TaggedOrder) (rem : ℚ) (seq : ℕ) (book : List TaggedOrder)
      (x : TaggedOrder),
      x ∈ book → 0 < x.2.quantity →
      (∀ b ∈ book, b.2.id = x.2.id → b = x) →
      (∀ b ∈ book, b.1 = x.1 → b = x) →
      (∀ e ∈ el, e ≠ x → e.1 ≠ x.1 ∧ e.2.id ≠ x.2.id) →
      (el.map Prod.fst).Nodup →
      ∀ A : ℚ,
        A = (((matchLoop taker now el rem seq book).newTrades.filter
            fun t => decide ((makerRef taker.side t).1 = x.2.id)).map Trade.quantity).sum →
        A ≤ x.2.quantity ∧
        (0 < x.2.quantity - A →
          (x.1, { x.2 with quantity := x.2.quantity - A })
            ∈ (matchLoop taker now el rem seq book).orders) ∧
        (x.2.quantity - A ≤ 0 →
          x.1 ∉ (matchLoop taker now el rem seq book).orders.map Prod.fst) := by
  intro el
  induction el with
  | nil =>
    intro rem seq book x hx hpos _ _ _ _ A hA
    simp only [matchLoop, List.filter_nil, List.map_nil, List.sum_nil] at hA
    subst hA
    refine ⟨le_of_lt hpos, fun _ => ?_, fun hc => absurd hpos (by linarith)⟩
    rw [sub_zero]
    exact hx
  | cons e rest ih =>
    intro rem seq book x hx hpos hbid hbtag hS hnd A hA
    simp only [List.map_cons, List.nodup_cons] at hnd
    by_cases hrem : rem ≤ 0
    · rw [matchLoop_nonpos taker now _ rem seq book hrem] at hA ⊢
      simp only [List.filter_nil, List.map_nil, List.sum_nil] at hA
      subst hA
      refine ⟨le_of_lt hpos, fun _ => ?_, fun hc => absurd hpos (by linarith)⟩
      rw [sub_zero]
      exact hx
    · simp only [matchLoop, if_neg hrem] at hA ⊢
      by_cases hex : e = x
      · subst hex
        have hxrest : ∀ e' ∈ rest, e'.1 ≠ e.1 ∧ e'.2.id ≠ e.2.id := by
          intro e' he'
          have hne : e' ≠ e := by
            intro hc
            subst hc
            exact hnd.1 (List.mem_map_of_mem Prod.fst he')
          exact hS e' (List.mem_cons_of_mem _ he') hne
        have hrest0 : ((matchLoop taker now rest (rem - min rem e.2.quantity) (seq + 1)
            (applyStep book e.1 (e.2.quantity - min rem e.2.quantity) e.2.id)).newTrades.filter
              fun t => decide ((makerRef taker.side t).1 = e.2.id)) = [] := by
          rw [List.filter_eq_nil_iff]
          intro t ht
          have hmem := matchLoop_maker_mem taker now _ _ _ _ t ht
          simp only [decide_eq_true_eq]
          intro hcontra
          rw [hcontra] at hmem
          obtain ⟨e', he', hid'⟩ := List.mem_map.mp hmem
          exact (hxrest e' he').2 hid'
        rw [List.filter_cons_of_pos (by simp [makerRef_mkTrade]), hrest0] at hA
        simp only [List.map_cons, List.map_nil, List.sum_cons, List.sum_nil, add_zero,
          mkTrade] at hA
        refine ⟨?_, ?_, ?_⟩
        · rw [hA]
          exact min_le_right _ _
        · intro hlt
          rw [hA] at hlt ⊢
          have hq' : ¬ (e.2.quantity - min rem e.2.quantity ≤ 0) := by linarith
          have hx' : ((e : TaggedOrder).1,
              { e.2 with quantity := e.2.quantity - min rem e.2.quantity })
                ∈ applyStep book e.1 (e.2.quantity - min rem e.2.quantity) e.2.id := by
            simp only [applyStep, if_neg hq']
            refine List.mem_map.mpr ⟨e, hx, ?_⟩
            rw [if_pos rfl]
          exact matchLoop_frame taker now rest _ _ _ _ hxrest hx'
        · intro hle
          rw [hA] at hle
          have hnotin : (e : TaggedOrder).1 ∉ (applyStep book e.1
              (e.2.quantity - min rem e.2.quantity) e.2.id).map Prod.fst := by
            intro hc
            obtain ⟨b', hb', hfst⟩ := List.mem_map.mp hc
            obtain ⟨b₀, hb₀, hfst₀, hid₀, _, hneg⟩ := mem_applyStep _ _ _ _ b' hb'
            have hb₀e : b₀ = e := hbtag b₀ hb₀ (by rw [← hfst₀, hfst])
            exact (hneg hle) (by rw [hid₀, hb₀e])
          intro hc
          exact hnotin ((matchLoop_fst_sublist taker now rest _ _ _).subset hc)
      · have hS_e := hS e (List.mem_cons_self e rest) hex
        have hhead : ¬ ((makerRef taker.side
            (mkTrade seq now taker e.2 (min rem e.2.quantity))).1 = x.2.id) := by
          rw [makerRef_mkTrade]
          exact hS_e.2
        rw [List.filter_cons_of_neg (by simpa using hhead)] at hA
        have hx' : x ∈ applyStep book e.1 (e.2.quantity - min rem e.2.quantity) e.2.id :=
          applyStep_mem_of_ne _ _ _ _ x hx (fun hc => hS_e.1 hc.symm)
            (fun hc => hS_e.2 hc.symm)
        have hbid' : ∀ b ∈ applyStep book e.1 (e.2.quantity - min rem e.2.quantity)
            e.2.id, b.2.id = x.2.id → b = x := by
          intro b' hb' hid'
          obtain ⟨b₀, hb₀, hfst₀, hid₀, hcase, _⟩ := mem_applyStep _ _ _ _ b' hb'
          have hb₀x : b₀ = x := hbid b₀ hb₀ (hid₀.symm.trans hid')
          rcases hcase with rfl | ⟨htag, _⟩
          · exact hb₀x
          · rw [hb₀x] at htag
            exact absurd htag.symm hS_e.1
        have hbtag' : ∀ b ∈ applyStep book e.1 (e.2.quantity - min rem e.2.quantity)
            e.2.id, b.1 = x.1 → b = x := by
          intro b' hb' htag'
          obtain ⟨b₀, hb₀, hfst₀, hid₀, hcase, _⟩ := mem_applyStep _ _ _ _ b' hb'
          have hb₀x : b₀ = x := hbtag b₀ hb₀ (hfst₀.symm.trans htag')
          rcases hcase with rfl | ⟨htag, _⟩
          · exact hb₀x
          · rw [hb₀x] at htag
            exact absurd htag.symm hS_e.1
        exact ih (rem - min rem e.2.quantity) (seq + 1) _ x hx' hpos hbid' hbtag'
          (fun e' he' => hS e' (List.mem_cons_of_mem _ he')) hnd.2 A hA

theorem addOrder_nextTag_market (st : OrderMatcher) (o : Order) (now : ℤ)
    (h : o.type = .market) :
    (addOrder st o now).2.nextTag = st.nextTag := by
  simp [addOrder, matchMarketOrder, h]

theorem addOrder_nextTag_limit (st : OrderMatcher) (o : Order) (now : ℤ)
    (h : o.type = .limit) :
    (addOrder st o now).2.nextTag
      = (if 0 < (matchLoop o now (consumptionList st o) o.quantity st.sequenceId
            st.orders).remainingQuantity
         then st.nextTag + 1 else st.nextTag) := by
  simp only [consumptionList, eligibleList, h]
  by_cases hrq : 0 < (matchLoop o now (List.insertionSort (takerBefore o.side)
      (st.orders.filter (limitEligible o))) o.quantity st.sequenceId
      st.orders).remainingQuantity <;>
    simp [addOrder, matchLimitOrder, h, hrq]

theorem nextTag_not_mem (st : OrderMatcher)
    (hdom : ∀ e ∈ st.orders, e.1 < st.nextTag) :
    st.nextTag ∉ st.orders.map Prod.fst := by
  intro hc
  obtain ⟨e, he, hfst⟩ := List.mem_map.mp hc
  exact absurd (hfst ▸ hdom e he) (lt_irrefl _)

/-- A submit call keeps the heap tags distinct: the surviving book entries
keep their tags and the pushed remainder gets the fresh allocation tag. -/
theorem addOrder_tags_nodup (st : OrderMatcher) (o : Order) (now : ℤ)
    (htags : (st.orders.map Prod.fst).Nodup)
    (hdom : ∀ e ∈ st.orders, e.1 < st.nextTag) :
    ((addOrder st o now).2.orders.map Prod.fst).Nodup := by
  have hloop : ((matchLoop o now (consumptionList st o) o.quantity st.sequenceId
      st.orders).orders.map Prod.fst).Nodup :=
    (matchLoop_fst_sublist o now _ _ _ _).nodup htags
  cases hty : o.type
  · rw [addOrder_orders_market st o now hty]
    exact hloop
  · rw [addOrder_orders_limit st o now hty]
    by_cases hrq : 0 < (matchLoop o now (consumptionList st o) o.quantity st.sequenceId
        st.orders).remainingQuantity
    · rw [if_pos hrq, List.map_append]
      simp only [List.map_cons, List.map_nil]
      rw [List.nodup_append]
      refine ⟨hloop, List.nodup_singleton _, ?_⟩
      intro a ha
      simp only [List.mem_singleton]
      intro hc
      subst hc
      exact nextTag_not_mem st hdom ((matchLoop_fst_sublist o now _ _ _ _).subset ha)
    · rw [if_neg hrq]
      exact hloop

/-- A submit call preserves tag dominance by the allocation counter. -/
theorem addOrder_dom (st : OrderMatcher) (o : Order) (now : ℤ)
    (hdom : ∀ e ∈ st.orders, e.1 < st.nextTag) :
    ∀ e ∈ (addOrder st o now).2.orders, e.1 < (addOrder st o now).2.nextTag := by
  have hloop : ∀ e ∈ (matchLoop o now (consumptionList st o) o.quantity st.sequenceId
      st.orders).orders, e.1 < st.nextTag := by
    intro e he
    obtain ⟨b, hb, hfst, _⟩ := matchLoop_orders_descend o now _ _ _ _ e he
    exact hfst ▸ hdom b hb
  cases hty : o.type
  · rw [addOrder_orders_market st o now hty, addOrder_nextTag_market st o now hty]
    exact hloop
  · rw [addOrder_orders_limit st o now hty, addOrder_nextTag_limit st o now hty]
    by_cases hrq : 0 < (matchLoop o now (consumptionList st o) o.quantity st.sequenceId
        st.orders).remainingQuantity
    · rw [if_pos hrq, if_pos hrq]
      intro e he
      rcases List.mem_append.mp he with he | he
      · exact lt_trans (hloop e he) (Nat.lt_succ_self _)
      · simp only [List.mem_singleton] at he
        subst he
        exact Nat.lt_succ_self _
    · rw [if_neg hrq, if_neg hrq]
      exact hloop

theorem addOrder_nextTag_mono (st : OrderMatcher) (o : Order) (now : ℤ) :
    st.nextTag ≤ (addOrder st o now).2.nextTag := by
  cases hty : o.type
  · rw [addOrder_nextTag_market st o now hty]
  · rw [addOrder_nextTag_limit st o now hty]
    by_cases hrq : 0 < (matchLoop o now (consumptionList st o) o.quantity st.sequenceId
        st.orders).remainingQuantity
    · rw [if_pos hrq]
      exact Nat.le_succ _
    · rw [if_neg hrq]

/-- A submit call keeps every resting quantity strictly positive (helper form
of the C4 preservation argument). -/
theorem addOrder_book_pos (st : OrderMatcher) (o : Order) (now : ℤ)
    (htags : (st.orders.map Prod.fst).Nodup)
    (hq : ∀ e ∈ st.orders, 0 < e.2.quantity) :
    ∀ e ∈ (addOrder st o now).2.orders, 0 < e.2.quantity := by
  intro e he
  have hcoh : ∀ x ∈ consumptionList st o, ∀ b ∈ st.orders,
      b.1 = x.1 → b.2.id = x.2.id := by
    intro x hx b hb htag
    have hxo : x ∈ st.orders := mem_orders_of_mem_eligibleList st o x
      (mem_eligibleList_of_mem_consumptionList st o x hx)
    rw [List.inj_on_of_nodup_map htags hb hxo htag]
  have hpos := matchLoop_book_pos o now (consumptionList st o) o.quantity
    st.sequenceId st.orders hq hcoh
  cases hty : o.type
  · rw [addOrder_orders_market st o now hty] at he
    exact hpos e he
  · rw [addOrder_orders_limit st o now hty] at he
    by_cases hrq : 0 < (matchLoop o now (consumptionList st o) o.quantity st.sequenceId
        st.orders).remainingQuantity
    · rw [if_pos hrq] at he
      rcases List.mem_append.mp he with he | he
      · exact hpos e he
      · simp only [List.mem_singleton] at he
        subst he
        simpa using hrq
    · rw [if_neg hrq] at he
      exact hpos e he

/-- The submit-call version of `matchLoop_maker_update`, with the target
resting object given as tag `τ` and order value `u`. -/
theorem addOrder_maker_update (st : OrderMatcher) (o : Order) (now : ℤ)
    (htags : (st.orders.map Prod.fst).Nodup)
    (hdom : ∀ e ∈ st.orders, e.1 < st.nextTag)
    (τ : ℕ) (u : Order) (hx : (τ, u) ∈ st.orders) (hpos : 0 < u.quantity)
    (hid : ∀ b ∈ st.orders, b.2.id = u.id → b = (τ, u)) :
    tradedAgainst (addOrder st o now).1.1 u.id ≤ u.quantity ∧
    (0 < u.quantity - tradedAgainst (addOrder st o now).1.1 u.id →
      (τ, { u with quantity := u.quantity - tradedAgainst (addOrder st o now).1.1 u.id })
        ∈ (addOrder st o now).2.orders) ∧
    (u.quantity - tradedAgainst (addOrder st o now).1.1 u.id ≤ 0 →
      τ ∉ (addOrder st o now).2.orders.map Prod.fst) := by
  have hbtag : ∀ b ∈ st.orders, b.1 = τ → b = (τ, u) := fun b hb h =>
    List.inj_on_of_nodup_map htags hb hx h
  have hS : ∀ e ∈ consumptionList st o, e ≠ (τ, u) → e.1 ≠ τ ∧ e.2.id ≠ u.id := by
    intro e he hne
    have heo : e ∈ st.orders := mem_orders_of_mem_eligibleList st o e
      (mem_eligibleList_of_mem_consumptionList st o e he)
    exact ⟨fun hc => hne (hbtag e heo hc), fun hc => hne (hid e heo hc)⟩
  have hA : tradedAgainst (addOrder st o now).1.1 u.id
      = (((matchLoop o now (consumptionList st o) o.quantity st.sequenceId
          st.orders).newTrades.filter
            fun t => decide ((makerRef o.side t).1 = u.id)).map Trade.quantity).sum := by
    rw [addOrder_tradedAgainst, addOrder_trades_eq]
  obtain ⟨h1, h2, h3⟩ := matchLoop_maker_update o now (consumptionList st o) o.quantity
    st.sequenceId st.orders (τ, u) hx hpos hid hbtag hS
    (consumption_tags_nodup st o htags) (tradedAgainst (addOrder st o now).1.1 u.id) hA
  refine ⟨h1, ?_, ?_⟩
  · intro hlt
    have hmem := h2 hlt
    cases hty : o.type
    · rw [addOrder_orders_market st o now hty]
      exact hmem
    · rw [addOrder_orders_limit st o now hty]
      by_cases hrq : 0 < (matchLoop o now (consumptionList st o) o.quantity st.sequenceId
          st.orders).remainingQuantity
      · rw [if_pos hrq]
        exact List.mem_append_left _ hmem
      · rw [if_neg hrq]
        exact hmem
  · intro hle
    have hnot := h3 hle
    cases hty : o.type
    · rw [addOrder_orders_market st o now hty]
      exact hnot
    · rw [addOrder_orders_limit st o now hty]
      by_cases hrq : 0 < (matchLoop o now (consumptionList st o) o.quantity st.sequenceId
          st.orders).remainingQuantity
      · rw [if_pos hrq]
        intro hc
        rw [List.map_append] at hc
        rcases List.mem_append.mp hc with hc | hc
        · exact hnot hc
        · simp only [List.map_cons, List.map_nil, List.mem_singleton] at hc
          exact absurd (hc ▸ hdom (τ, u) hx) (lt_irrefl _)
      · rw [if_neg hrq]
        exact hnot

theorem tradedAgainst_append (ts₁ ts₂ : List Trade) (oid : String) :
    tradedAgainst (ts₁ ++ ts₂) oid = tradedAgainst ts₁ oid + tradedAgainst ts₂ oid := by
  simp [tradedAgainst, List.filter_append]

/-- The run's trades are exactly what the engine's trade log accumulates. -/
theorem runSubmits_trades :
    ∀ (ops : List (Order × ℤ)) (st : OrderMatcher),
      (runSubmits st ops).trades = st.trades ++ tradesOfRun st ops
  | [], st => by simp [runSubmits, tradesOfRun]
  | op :: ops, st => by
    simp only [runSubmits, tradesOfRun]
    rw [runSubmits_trades ops, addOrder_log_eq, List.append_assoc]

/-- Once no resting order carries id `ι` and no submitted order reuses it, no
further trade ever executes against `ι`. -/
theorem run_traded_of_absent (ι : String) :
    ∀ (ops : List (Order × ℤ)) (st : OrderMatcher),
      (∀ op ∈ ops, op.1.id ≠ ι) →
      ι ∉ st.orders.map (fun e => e.2.id) →
      tradedAgainst (tradesOfRun st ops) ι = 0
  | [], _, _, _ => rfl
  | op :: ops, st, hops, habs => by
    simp only [tradesOfRun]
    rw [tradedAgainst_append]
    have h1 : tradedAgainst (addOrder st op.1 op.2).1.1 ι = 0 := by
      unfold tradedAgainst
      have hnil : ((addOrder st op.1 op.2).1.1.filter
          fun t => decide (makerId t = ι)) = [] := by
        rw [List.filter_eq_nil_iff]
        intro t ht
        simp only [decide_eq_true_eq]
        intro hc
        obtain ⟨b, hb, hbid⟩ := addOrder_maker_ids st op.1 op.2 t ht
        exact habs (by rw [← hc, hbid]; exact List.mem_map_of_mem _ hb)
      rw [hnil]
      rfl
    have h2 : ι ∉ (addOrder st op.1 op.2).2.orders.map (fun e => e.2.id) := by
      intro hc
      obtain ⟨b', hb', hbid⟩ := List.mem_map.mp hc
      rcases addOrder_orders_descend st op.1 op.2 b' hb' with ⟨b, hb, _, hidb⟩ | ⟨_, hidb⟩
      · exact habs (by rw [← hbid, hidb]; exact List.mem_map_of_mem _ hb)
      · exact (hops op (List.mem_cons_self _ _)) (by rw [← hbid, hidb])
    rw [h1, run_traded_of_absent ι ops _
      (fun op' h' => hops op' (List.mem_cons_of_mem _ h')) h2, add_zero]

/-- While the resting object `(τ, u-with-quantity-q)` is the unique carrier
of id `u.id` in a well-formed book, the total volume a run of submit calls
(none of them reusing `u.id`) trades against that id is at most `q`: each
call decrements the remaining quantity by exactly what it trades, and the
order disappears from the book exactly when the quantity is exhausted. -/
theorem run_traded_le (τ : ℕ) (u : Order) :
    ∀ (ops : List (Order × ℤ)) (st : OrderMatcher) (q : ℚ),
      (st.orders.map Prod.fst).Nodup →
      (∀ e ∈ st.orders, e.1 < st.nextTag) →
      (∀ e ∈ st.orders, 0 < e.2.quantity) →
      (∀ op ∈ ops, op.1.id ≠ u.id) →
      (τ, { u with quantity := q }) ∈ st.orders →
      0 < q →
      (∀ b ∈ st.orders, b.2.id = u.id → b = (τ, { u with quantity := q })) →
      tradedAgainst (tradesOfRun st ops) u.id ≤ q := by
  intro ops
  induction ops with
  | nil =>
    intro st q _ _ _ _ _ hq _
    simp only [tradesOfRun]
    exact le_of_lt (by simpa [tradedAgainst] using hq)
  | cons op ops ih =>
    intro st q htags hdom hpos hops hxmem hq hxid
    simp only [tradesOfRun]
    rw [tradedAgainst_append]
    have hqid : ({ u with quantity := q } : Order).id = u.id := rfl
    have hqq : ({ u with quantity := q } : Order).quantity = q := rfl
    have hupd := addOrder_maker_update st op.1 op.2 htags hdom τ
      { u with quantity := q } hxmem (by rw [hqq]; exact hq) (by rw [hqid]; exact hxid)
    rw [hqid, hqq] at hupd
    obtain ⟨hA_le, hsurv, hgone⟩ := hupd
    by_cases hlt : 0 < q - tradedAgainst (addOrder st op.1 op.2).1.1 u.id
    · have hmem' := hsurv hlt
      have hcollapse : ({ { u with quantity := q } with
          quantity := q - tradedAgainst (addOrder st op.1 op.2).1.1 u.id } : Order)
          = { u with quantity := q - tradedAgainst (addOrder st op.1 op.2).1.1 u.id } := rfl
      rw [hcollapse] at hmem'
      have htags' := addOrder_tags_nodup st op.1 op.2 htags hdom
      have hdom' := addOrder_dom st op.1 op.2 hdom
      have hpos' := addOrder_book_pos st op.1 op.2 htags hpos
      have hxid' : ∀ b ∈ (addOrder st op.1 op.2).2.orders, b.2.id = u.id →
          b = (τ, { u with quantity :=
            q - tradedAgainst (addOrder st op.1 op.2).1.1 u.id }) := by
        intro b hb hbid
        rcases addOrder_orders_descend st op.1 op.2 b hb with ⟨b₀, hb₀, hbfst, hbid₀⟩ |
          ⟨_, hbid₀⟩
        · have hb₀x := hxid b₀ hb₀ (hbid₀.symm.trans hbid)
          have hbtag : b.1 = τ := by rw [hbfst, hb₀x]
          exact List.inj_on_of_nodup_map htags' hb hmem' hbtag
        · exact absurd (hbid₀.symm.trans hbid) (hops op (List.mem_cons_self _ _))
      have hrest := ih _ (q - tradedAgainst (addOrder st op.1 op.2).1.1 u.id)
        htags' hdom' hpos' (fun op' h' => hops op' (List.mem_cons_of_mem _ h'))
        hmem' hlt hxid'
      linarith
    · push_neg at hlt
      have hnot := hgone hlt
      have habs : u.id ∉ (addOrder st op.1 op.2).2.orders.map (fun e => e.2.id) := by
        intro hc
        obtain ⟨b, hb, hbid⟩ := List.mem_map.mp hc
        rcases addOrder_orders_descend st op.1 op.2 b hb with ⟨b₀, hb₀, hbfst, hbid₀⟩ |
          ⟨_, hbid₀⟩
        · have hb₀x := hxid b₀ hb₀ (hbid₀.symm.trans hbid)
          refine hnot ?_
          have hbtag : b.1 = τ := by rw [hbfst, hb₀x]
          exact hbtag ▸ List.mem_map_of_mem Prod.fst hb
        · exact (hops op (List.mem_cons_self _ _)) (hbid₀.symm.trans hbid)
      rw [run_traded_of_absent u.id ops _
        (fun op' h' => hops op' (List.mem_cons_of_mem _ h')) habs]
      linarith

def wSell : Order := ⟨"a", 99, 3, .sell, .limit, 0⟩

def wBuy : Order := ⟨"b", 100, 2, .buy, .limit, 0⟩

def wState : OrderMatcher := ⟨[(0, wSell)], [], 0, 1⟩

def wMarketBuy : Order := ⟨"m", 0, 7, .buy, .market, 0⟩

def wZeroBuy : Order := ⟨"z", 100, 0, .buy, .limit, 0⟩

/-! ### The claims -/

/-- C1: for every engine state and submitted order, the resting orders are
consumed along `consumptionList`, which is (i) sorted by price priority for
the taker's side (ascending resting price for a buy, descending for a sell),
(ii) stable — restricted to any one price it preserves the arrival order of
the eligible resting set — and (iii) the emitted trades run through exactly
that list in order (the sequence of makers traded against is the
corresponding prefix of the consumption list). -/
theorem c1_price_time_priority (st : OrderMatcher) (o : Order) (now : ℤ) :
    List.Sorted (takerBefore o.side) (consumptionList st o) ∧
    (∀ v : ℚ, (consumptionList st o).filter (fun e => decide (e.2.price = v))
        = (eligibleList st o).filter (fun e => decide (e.2.price = v))) ∧
    (addOrder st o now).1.1.map (makerRef o.side)
      = ((consumptionList st o).take (addOrder st o now).1.1.length).map
          (fun e => (e.2.id, e.2.price)) := by
  refine ⟨List.sorted_insertionSort _ _, ?_, ?_⟩
  · intro v
    apply filter_insertionSort
    intro a b ha hb
    simp only [decide_eq_true_eq] at ha hb
    cases o.side <;> simp [takerBefore, ha, hb]
  · rw [addOrder_trades_eq]
    exact matchLoop_makers o now _ _ _ _

/-- C2: every trade emitted by a submit call carries the price of the resting
(maker) order it matched against — the maker is an opposing-side order of the
pre-call resting set, identified in the trade by the maker-side id field. -/
theorem c2_maker_price (st : OrderMatcher) (o : Order) (now : ℤ) :
    ∀ t ∈ (addOrder st o now).1.1, ∃ e ∈ st.orders,
      e.2.side = o.side.opp ∧ t.price = e.2.price ∧
        makerRef o.side t = (e.2.id, e.2.price) := by
  intro t ht
  rw [addOrder_trades_eq] at ht
  obtain ⟨e, he, q, s, rfl⟩ := matchLoop_trade_shape o now _ _ _ _ t ht
  have hel := mem_eligibleList_of_mem_consumptionList st o e he
  refine ⟨e, mem_orders_of_mem_eligibleList st o e hel,
    opp_side_of_mem_eligibleList st o e hel, by simp [mkTrade], makerRef_mkTrade _ _ _ _ _⟩

/-- Witness for C2 on a concrete book: one resting ask `99×3`, incoming limit
buy `100×2`; the single trade prices at the maker's 99. -/
theorem c2_maker_price_witness :
    ∃ e ∈ wState.orders,
      e.2.side = Side.opp wBuy.side ∧
        (Trade.mk "trade_0" 99 2 .buy 7 "b" "a").price = e.2.price ∧
        makerRef wBuy.side (Trade.mk "trade_0" 99 2 .buy 7 "b" "a") = (e.2.id, e.2.price) :=
  c2_maker_price wState wBuy 7 (Trade.mk "trade_0" 99 2 .buy 7 "b" "a") (by decide)

/-- C3: in each match step of a submit call the traded quantity is
`min(incoming remaining, resting quantity)`, the incoming remaining quantity
before step `i` being the order's quantity minus everything already matched;
the matched resting order's quantity decreases by exactly the amount traded
against it — it stays resting with exactly the decremented quantity while
that is positive and is removed from the book in the same call once it
reaches ≤ 0; and consequently, over any run of submit calls (none reusing
the order's caller-assigned unique id), the total quantity traded against a
resting order never exceeds that order's original quantity. The run's trades
are exactly what the engine's trade log accumulates. Hypotheses are the
documented invariants of every engine-built state: distinct heap objects
(tags), tags dominated by the allocation counter, unique order ids, and
strictly positive resting quantities. -/
theorem c3_quantity_conservation (st : OrderMatcher) (o : Order) (now : ℤ)
    (htags : (st.orders.map Prod.fst).Nodup)
    (hdom : ∀ e ∈ st.orders, e.1 < st.nextTag)
    (hids : (st.orders.map fun e => e.2.id).Nodup)
    (hq : ∀ e ∈ st.orders, 0 < e.2.quantity) :
    ((addOrder st o now).1.1.length ≤ (consumptionList st o).length) ∧
    (∀ (i : ℕ) (t : Trade) (e : TaggedOrder),
        (addOrder st o now).1.1[i]? = some t → (consumptionList st o)[i]? = some e →
        t.quantity
          = min (o.quantity - (((addOrder st o now).1.1.take i).map Trade.quantity).sum)
              e.2.quantity) ∧
    (∀ e ∈ st.orders,
        tradedAgainst (addOrder st o now).1.1 e.2.id ≤ e.2.quantity ∧
        (0 < e.2.quantity - tradedAgainst (addOrder st o now).1.1 e.2.id →
          (e.1, { e.2 with quantity :=
              e.2.quantity - tradedAgainst (addOrder st o now).1.1 e.2.id })
            ∈ (addOrder st o now).2.orders) ∧
        (e.2.quantity - tradedAgainst (addOrder st o now).1.1 e.2.id ≤ 0 →
          e.1 ∉ (addOrder st o now).2.orders.map Prod.fst)) ∧
    (∀ ops : List (Order × ℤ),
        (runSubmits st ops).trades = st.trades ++ tradesOfRun st ops) ∧
    (∀ (ops : List (Order × ℤ)) (e : TaggedOrder), e ∈ st.orders →
        (∀ op ∈ ops, op.1.id ≠ e.2.id) →
        tradedAgainst (tradesOfRun st ops) e.2.id ≤ e.2.quantity) := by
  refine ⟨?_, ?_, ?_, fun ops => runSubmits_trades ops st, ?_⟩
  · rw [addOrder_trades_eq]
    exact matchLoop_length_le o now _ _ _ _
  · intro i t e ht he
    rw [addOrder_trades_eq] at ht ⊢
    exact matchLoop_qty o now _ _ _ _ i t e ht he
  · intro e he
    exact addOrder_maker_update st o now htags hdom e.1 e.2 he (hq e he)
      (fun b hb hbid => List.inj_on_of_nodup_map hids hb he hbid)
  · intro ops e he hops
    exact run_traded_le e.1 e.2 ops st e.2.quantity htags hdom hq hops he (hq e he)
      (fun b hb hbid => List.inj_on_of_nodup_map hids hb he hbid)

/-- Witness for C3 on the concrete `wState`/`wBuy` book. -/
theorem c3_quantity_conservation_witness :
    ((addOrder wState wBuy 7).1.1.length ≤ (consumptionList wState wBuy).length) ∧
    (∀ (i : ℕ) (t : Trade) (e : TaggedOrder),
        (addOrder wState wBuy 7).1.1[i]? = some t →
        (consumptionList wState wBuy)[i]? = some e →
        t.quantity
          = min (wBuy.quantity - (((addOrder wState wBuy 7).1.1.take i).map Trade.quantity).sum)
              e.2.quantity) ∧
    (∀ e ∈ wState.orders,
        tradedAgainst (addOrder wState wBuy 7).1.1 e.2.id ≤ e.2.quantity ∧
        (0 < e.2.quantity - tradedAgainst (addOrder wState wBuy 7).1.1 e.2.id →
          (e.1, { e.2 with quantity :=
              e.2.quantity - tradedAgainst (addOrder wState wBuy 7).1.1 e.2.id })
            ∈ (addOrder wState wBuy 7).2.orders) ∧
        (e.2.quantity - tradedAgainst (addOrder wState wBuy 7).1.1 e.2.id ≤ 0 →
          e.1 ∉ (addOrder wState wBuy 7).2.orders.map Prod.fst)) ∧
    (∀ ops : List (Order × ℤ),
        (runSubmits wState ops).trades = wState.trades ++ tradesOfRun wState ops) ∧
    (∀ (ops : List (Order × ℤ)) (e : TaggedOrder), e ∈ wState.orders →
        (∀ op ∈ ops, op.1.id ≠ e.2.id) →
        tradedAgainst (tradesOfRun wState ops) e.2.id ≤ e.2.quantity) :=
  c3_quantity_conservation wState wBuy 7 (by decide) (by decide) (by decide) (by decide)

/-- C5: a submitted market order never rests: the returned remainder is
`none` and every order resting after the call was already resting before it
(no new object — no tag — is ever inserted). -/
theorem c5_market_never_rests (st : OrderMatcher) (o : Order) (now : ℤ)
    (h : o.type = .market) :
    (addOrder st o now).1.2 = none ∧
    ∀ e ∈ (addOrder st o now).2.orders, e.1 ∈ st.orders.map Prod.fst := by
  refine ⟨addOrder_remaining_market st o now h, ?_⟩
  intro e he
  rw [addOrder_orders_market st o now h] at he
  exact (matchLoop_fst_sublist o now (consumptionList st o) o.quantity st.sequenceId
    st.orders).subset (List.mem_map_of_mem Prod.fst he)

/-- Witness for C5: a market buy for 7 against the single resting ask. -/
theorem c5_market_never_rests_witness :
    (addOrder wState wMarketBuy 7).1.2 = none ∧
    ∀ e ∈ (addOrder wState wMarketBuy 7).2.orders, e.1 ∈ wState.orders.map Prod.fst :=
  c5_market_never_rests wState wMarketBuy 7 (by decide)

/-- C9: submitting any order with quantity ≤ 0 is a complete no-op: no
trades, a `none` remainder, and an engine state identical to the input state
(nothing rests, nothing is mutated, the counter does not move). -/
theorem c9_nonpositive_noop (st : OrderMatcher) (o : Order) (now : ℤ)
    (h : o.quantity ≤ 0) :
    addOrder st o now = (([], none), st) := by
  have hml := matchLoop_nonpos o now (consumptionList st o) o.quantity st.sequenceId st.orders h
  have hnlt : ¬0 < o.quantity := not_lt.mpr h
  cases hty : o.type
  · simp only [consumptionList, eligibleList, hty] at hml
    simp [addOrder, matchMarketOrder, hty, hml]
  · simp only [consumptionList, eligibleList, hty] at hml
    simp [addOrder, matchLimitOrder, hty, hml, hnlt]

/-- Witness for C9: a zero-quantity limit buy against the one-ask book. -/
theorem c9_nonpositive_noop_witness :
    addOrder wState wZeroBuy 7 = (([], none), wState) :=
  c9_nonpositive_noop wState wZeroBuy 7 (by decide)

/-- C10: each submit call advances `sequenceId` by exactly the number of
trades it generated, the `i`-th trade of a call carries the strictly
increasing counter value `sequenceId + i` in its `trade_<n>` identifier, and
`clear()` empties the resting set and the trade log but leaves the counter
untouched. -/
theorem c10_sequence_counter (st : OrderMatcher) (o : Order) (now : ℤ) :
    (addOrder st o now).2.sequenceId = st.sequenceId + (addOrder st o now).1.1.length ∧
    (∀ (i : ℕ) (t : Trade), (addOrder st o now).1.1[i]? = some t →
        t.id = "trade_" ++ toString (st.sequenceId + i)) ∧
    (clear st).sequenceId = st.sequenceId ∧ (clear st).orders = [] ∧
      (clear st).trades = [] := by
  refine ⟨?_, ?_, rfl, rfl, rfl⟩
  · rw [addOrder_seq_eq, addOrder_trades_eq]
    exact matchLoop_seq_eq o now _ _ _ _
  · intro i t ht
    rw [addOrder_trades_eq] at ht
    exact matchLoop_trade_id o now _ _ _ _ i t ht

/-- C4: every engine operation preserves the invariant that resting orders
have strictly positive quantity (a filled resting order is removed within the
same submit call, and only a strictly positive limit remainder is inserted).
The tag-Nodup hypothesis says the book holds distinct heap objects, which is
true of every state the engine itself builds. -/
theorem c4_positive_resting (st : OrderMatcher)
    (htags : (st.orders.map Prod.fst).Nodup)
    (hq : ∀ e ∈ st.orders, 0 < e.2.quantity) :
    (∀ (o : Order) (now : ℤ), ∀ e ∈ (addOrder st o now).2.orders, 0 < e.2.quantity) ∧
    (∀ oid : String, ∀ e ∈ (removeOrder st oid).2.orders, 0 < e.2.quantity) ∧
    (∀ e ∈ (clear st).orders, 0 < e.2.quantity) := by
  refine ⟨?_, ?_, ?_⟩
  · intro o now e he
    have hcoh : ∀ x ∈ consumptionList st o, ∀ b ∈ st.orders,
        b.1 = x.1 → b.2.id = x.2.id := by
      intro x hx b hb htag
      have hxo : x ∈ st.orders := mem_orders_of_mem_eligibleList st o x
        (mem_eligibleList_of_mem_consumptionList st o x hx)
      have : b = x := List.inj_on_of_nodup_map htags hb hxo htag
      rw [this]
    have hpos := matchLoop_book_pos o now (consumptionList st o) o.quantity
      st.sequenceId st.orders hq hcoh
    cases hty : o.type
    · rw [addOrder_orders_market st o now hty] at he
      exact hpos e he
    · rw [addOrder_orders_limit st o now hty] at he
      by_cases hrq : 0 < (matchLoop o now (consumptionList st o) o.quantity st.sequenceId
          st.orders).remainingQuantity
      · rw [if_pos hrq] at he
        rcases List.mem_append.mp he with he | he
        · exact hpos e he
        · simp only [List.mem_singleton] at he
          subst he
          simpa using hrq
      · rw [if_neg hrq] at he
        exact hpos e he
  · intro oid e he
    exact hq e (List.mem_of_mem_filter he)
  · intro e he
    simp [clear] at he

/-- Witness for C4 on the concrete one-ask book. -/
theorem c4_positive_resting_witness :
    (∀ (o : Order) (now : ℤ), ∀ e ∈ (addOrder wState o now).2.orders, 0 < e.2.quantity) ∧
    (∀ oid : String, ∀ e ∈ (removeOrder wState oid).2.orders, 0 < e.2.quantity) ∧
    (∀ e ∈ (clear wState).orders, 0 < e.2.quantity) :=
  c4_positive_resting wState (by decide) (by decide)

/-! ### Congruence lemmas: submit reads nothing but the resting orders,
the sequence counter, the incoming order and the clock -/

theorem orderedInsert_snd_congr (s : Side) :
    ∀ (l₁ l₂ : List TaggedOrder) (a₁ a₂ : TaggedOrder), a₁.2 = a₂.2 →
      l₁.map Prod.snd = l₂.map Prod.snd →
      (l₁.orderedInsert (takerBefore s) a₁).map Prod.snd
        = (l₂.orderedInsert (takerBefore s) a₂).map Prod.snd := by
  intro l₁
  induction l₁ with
  | nil =>
    intro l₂ a₁ a₂ ha h
    cases l₂ with
    | nil => simp [List.orderedInsert, ha]
    | cons b₂ t₂ => simp at h
  | cons b₁ t₁ ih =>
    intro l₂ a₁ a₂ ha h
    cases l₂ with
    | nil => simp at h
    | cons b₂ t₂ =>
      simp only [List.map_cons, List.cons.injEq] at h
      obtain ⟨hb, ht⟩ := h
      have hiff : takerBefore s a₁ b₁ ↔ takerBefore s a₂ b₂ := by
        cases s <;> simp [takerBefore, ha, hb]
      by_cases hr : takerBefore s a₁ b₁
      · simp only [List.orderedInsert, if_pos hr, if_pos (hiff.mp hr), List.map_cons]
        rw [ha, hb, ht]
      · simp only [List.orderedInsert, if_neg hr, if_neg fun hc => hr (hiff.mpr hc),
          List.map_cons]
        rw [hb, ih t₂ a₁ a₂ ha ht]

theorem insertionSort_snd_congr (s : Side) :
    ∀ (l₁ l₂ : List TaggedOrder), l₁.map Prod.snd = l₂.map Prod.snd →
      (List.insertionSort (takerBefore s) l₁).map Prod.snd
        = (List.insertionSort (takerBefore s) l₂).map Prod.snd := by
  intro l₁
  induction l₁ with
  | nil =>
    intro l₂ h
    cases l₂ with
    | nil => rfl
    | cons b₂ t₂ => simp at h
  | cons a₁ t₁ ih =>
    intro l₂ h
    cases l₂ with
    | nil => simp at h
    | cons a₂ t₂ =>
      simp only [List.map_cons, List.cons.injEq] at h
      exact orderedInsert_snd_congr s _ _ a₁ a₂ h.1 (ih t₂ h.2)

theorem filter_snd_congr (p : TaggedOrder → Bool)
    (hp : ∀ a b : TaggedOrder, a.2 = b.2 → p a = p b) :
    ∀ (l₁ l₂ : List TaggedOrder), l₁.map Prod.snd = l₂.map Prod.snd →
      (l₁.filter p).map Prod.snd = (l₂.filter p).map Prod.snd := by
  intro l₁
  induction l₁ with
  | nil =>
    intro l₂ h
    cases l₂ with
    | nil => rfl
    | cons b₂ t₂ => simp at h
  | cons a₁ t₁ ih =>
    intro l₂ h
    cases l₂ with
    | nil => simp at h
    | cons a₂ t₂ =>
      simp only [List.map_cons, List.cons.injEq] at h
      obtain ⟨ha, ht⟩ := h
      rw [List.filter_cons, List.filter_cons, hp a₁ a₂ ha]
      by_cases hpa : p a₂
      · simp only [if_pos hpa, List.map_cons, ha, ih t₂ ht]
      · simp only [if_neg hpa, ih t₂ ht]

theorem consumptionList_snd_congr (st₁ st₂ : OrderMatcher) (o : Order)
    (h : st₁.orders.map Prod.snd = st₂.orders.map Prod.snd) :
    (consumptionList st₁ o).map Prod.snd = (consumptionList st₂ o).map Prod.snd := by
  cases hty : o.type <;> simp only [consumptionList, eligibleList, hty]
  · exact insertionSort_snd_congr o.side _ _
      (filter_snd_congr (marketEligible o)
        (fun a b hab => by simp [marketEligible, hab]) _ _ h)
  · exact insertionSort_snd_congr o.side _ _
      (filter_snd_congr (limitEligible o)
        (fun a b hab => by simp [limitEligible, hab]) _ _ h)

theorem matchLoop_congr (taker : Order) (now₁ now₂ : ℤ) :
    ∀ (el₁ el₂ : List TaggedOrder) (rem : ℚ) (seq : ℕ) (b₁ b₂ : List TaggedOrder),
      el₁.map Prod.snd = el₂.map Prod.snd →
      ((matchLoop taker now₁ el₁ rem seq b₁).newTrades.map eraseStamp
          = (matchLoop taker now₂ el₂ rem seq b₂).newTrades.map eraseStamp)
      ∧ (matchLoop taker now₁ el₁ rem seq b₁).remainingQuantity
          = (matchLoop taker now₂ el₂ rem seq b₂).remainingQuantity
      ∧ (matchLoop taker now₁ el₁ rem seq b₁).sequenceId
          = (matchLoop taker now₂ el₂ rem seq b₂).sequenceId := by
  intro el₁
  induction el₁ with
  | nil =>
    intro el₂ rem seq b₁ b₂ h
    cases el₂ with
    | nil => exact ⟨rfl, rfl, rfl⟩
    | cons e₂ t₂ => simp at h
  | cons e₁ t₁ ih =>
    intro el₂ rem seq b₁ b₂ h
    cases el₂ with
    | nil => simp at h
    | cons e₂ t₂ =>
      simp only [List.map_cons, List.cons.injEq] at h
      obtain ⟨he, ht⟩ := h
      by_cases hrem : rem ≤ 0
      · simp [matchLoop, hrem]
      · simp only [matchLoop, if_neg hrem, List.map_cons]
        have hq : e₁.2.quantity = e₂.2.quantity := by rw [he]
        obtain ⟨ih1, ih2, ih3⟩ := ih t₂ (rem - min rem e₂.2.quantity) (seq + 1)
          (applyStep b₁ e₁.1 (e₂.2.quantity - min rem e₂.2.quantity) e₁.2.id)
          (applyStep b₂ e₂.1 (e₂.2.quantity - min rem e₂.2.quantity) e₂.2.id) ht
        rw [hq]
        refine ⟨?_, ih2, ih3⟩
        rw [ih1]
        simp [eraseStamp, mkTrade, he]

theorem matchLoop_congr_now (taker : Order) (now : ℤ) :
    ∀ (el₁ el₂ : List TaggedOrder) (rem : ℚ) (seq : ℕ) (b₁ b₂ : List TaggedOrder),
      el₁.map Prod.snd = el₂.map Prod.snd →
      (matchLoop taker now el₁ rem seq b₁).newTrades
        = (matchLoop taker now el₂ rem seq b₂).newTrades := by
  intro el₁
  induction el₁ with
  | nil =>
    intro el₂ rem seq b₁ b₂ h
    cases el₂ with
    | nil => rfl
    | cons e₂ t₂ => simp at h
  | cons e₁ t₁ ih =>
    intro el₂ rem seq b₁ b₂ h
    cases el₂ with
    | nil => simp at h
    | cons e₂ t₂ =>
      simp only [List.map_cons, List.cons.injEq] at h
      obtain ⟨he, ht⟩ := h
      by_cases hrem : rem ≤ 0
      · simp [matchLoop, hrem]
      · simp only [matchLoop, if_neg hrem]
        have hq : e₁.2.quantity = e₂.2.quantity := by rw [he]
        rw [hq, ih t₂ (rem - min rem e₂.2.quantity) (seq + 1)
          (applyStep b₁ e₁.1 (e₂.2.quantity - min rem e₂.2.quantity) e₁.2.id)
          (applyStep b₂ e₂.1 (e₂.2.quantity - min rem e₂.2.quantity) e₂.2.id) ht,
          mkTrade, mkTrade, he]

/-- C8: `submit` is deterministic. Two engine states holding the same resting
orders and the same sequence counter (regardless of trade-log contents or
heap layout) produce the same trade sequence for the same incoming order:
identical trades at the same wall-clock instant, trades differing at most in
their timestamp field across different instants, and an identical remainder. -/
theorem c8_determinism (st₁ st₂ : OrderMatcher) (o : Order) (now now₁ now₂ : ℤ)
    (horders : st₁.orders.map Prod.snd = st₂.orders.map Prod.snd)
    (hseq : st₁.sequenceId = st₂.sequenceId) :
    (addOrder st₁ o now).1.1 = (addOrder st₂ o now).1.1 ∧
    (addOrder st₁ o now₁).1.1.map eraseStamp = (addOrder st₂ o now₂).1.1.map eraseStamp ∧
    (addOrder st₁ o now₁).1.2 = (addOrder st₂ o now₂).1.2 := by
  have hcons := consumptionList_snd_congr st₁ st₂ o horders
  obtain ⟨h1, h2, _⟩ := matchLoop_congr o now₁ now₂ (consumptionList st₁ o)
    (consumptionList st₂ o) o.quantity st₂.sequenceId st₁.orders st₂.orders hcons
  refine ⟨?_, ?_, ?_⟩
  · rw [addOrder_trades_eq, addOrder_trades_eq, hseq]
    exact matchLoop_congr_now o now _ _ o.quantity st₂.sequenceId _ _ hcons
  · rw [addOrder_trades_eq, addOrder_trades_eq, hseq]
    exact h1
  · cases hty : o.type
    · rw [addOrder_remaining_market st₁ o now₁ hty, addOrder_remaining_market st₂ o now₂ hty]
    · rw [addOrder_remaining_limit st₁ o now₁ hty, addOrder_remaining_limit st₂ o now₂ hty,
        hseq, h2]

/-- Witness for C8: two states with the same resting orders and counter but
different trade logs, heap tags and clocks. -/
theorem c8_determinism_witness :
    (addOrder wState wBuy 7).1.1
        = (addOrder ⟨[(5, wSell)], [Trade.mk "x" 1 1 .buy 0 "p" "q"], 0, 9⟩ wBuy 7).1.1 ∧
    (addOrder wState wBuy 3).1.1.map eraseStamp
        = (addOrder ⟨[(5, wSell)], [Trade.mk "x" 1 1 .buy 0 "p" "q"], 0, 9⟩ wBuy 4).1.1.map
            eraseStamp ∧
    (addOrder wState wBuy 3).1.2
        = (addOrder ⟨[(5, wSell)], [Trade.mk "x" 1 1 .buy 0 "p" "q"], 0, 9⟩ wBuy 4).1.2 :=
  c8_determinism wState ⟨[(5, wSell)], [Trade.mk "x" 1 1 .buy 0 "p" "q"], 0, 9⟩ wBuy 7 3 4
    (by decide) (by decide)

/-! ### Book aggregation: grouping, totals and sortedness -/

/-- One side's resting orders, as `aggregateOrdersByPrice` selects them. -/
def sideOrders (st : OrderMatcher) (side : Side) : List Order :=
  (st.orders.map Prod.snd).filter fun o => decide (o.side = side)

/-- Total resting quantity at an exact price. -/
def sumQtyAt (os : List Order) (p : ℚ) : ℚ :=
  ((os.filter fun o => decide (o.price = p)).map Order.quantity).sum

/-- Number of resting orders at an exact price. -/
def countAt (os : List Order) (p : ℚ) : ℕ :=
  (os.filter fun o => decide (o.price = p)).length

/-- `bids[0]?.price || 0`: the first level's price, or 0 when there is none
(a price of exactly 0 yields the same value either way). -/
def bestOf (ls : List OrderBookLevel) : ℚ :=
  match ls.head? with
  | some l => l.price
  | none => 0

theorem aggregate_eq (st : OrderMatcher) (side : Side) :
    aggregateOrdersByPrice st side
      = withTotals 0 (List.insertionSort (levelBefore side)
          (priceLevels (sideOrders st side))) := rfl

theorem sumQtyAt_append_single (hist : List Order) (o : Order) (p : ℚ) :
    sumQtyAt (hist ++ [o]) p
      = sumQtyAt hist p + (if o.price = p then o.quantity else 0) := by
  by_cases h : o.price = p <;> simp [sumQtyAt, List.filter_append, h]

theorem countAt_append_single (hist : List Order) (o : Order) (p : ℚ) :
    countAt (hist ++ [o]) p = countAt hist p + (if o.price = p then 1 else 0) := by
  by_cases h : o.price = p <;> simp [countAt, List.filter_append, h]

theorem sumQtyAt_of_not_mem (hist : List Order) (p : ℚ)
    (h : p ∉ hist.map Order.price) : sumQtyAt hist p = 0 := by
  have : hist.filter (fun o => decide (o.price = p)) = [] := by
    rw [List.filter_eq_nil_iff]
    intro o ho
    simp only [decide_eq_true_eq]
    intro hc
    exact h (hc ▸ List.mem_map_of_mem Order.price ho)
  simp [sumQtyAt, this]

theorem insertLevel_spec (m : List (ℚ × ℚ × ℕ)) (hist : List Order) (o : Order)
    (h1 : (m.map Prod.fst).Nodup)
    (h2 : ∀ e ∈ m, e.2.1 = sumQtyAt hist e.1 ∧ e.2.2 = countAt hist e.1)
    (h3 : ∀ p : ℚ, p ∈ m.map Prod.fst ↔ p ∈ hist.map Order.price) :
    ((insertLevel m o).map Prod.fst).Nodup ∧
    (∀ e ∈ insertLevel m o,
        e.2.1 = sumQtyAt (hist ++ [o]) e.1 ∧ e.2.2 = countAt (hist ++ [o]) e.1) ∧
    (∀ p : ℚ, p ∈ (insertLevel m o).map Prod.fst ↔ p ∈ (hist ++ [o]).map Order.price) := by
  by_cases hany : m.any fun e => decide (e.1 = o.price)
  · have hkeys : (m.map fun e =>
        if e.1 = o.price then (e.1, e.2.1 + o.quantity, e.2.2 + 1) else e).map Prod.fst
        = m.map Prod.fst := by
      rw [List.map_map]
      apply List.map_congr_left
      intro e _
      by_cases h : e.1 = o.price <;> simp [h]
    have hop : o.price ∈ m.map Prod.fst := by
      obtain ⟨e, he, hpe⟩ := List.any_eq_true.mp hany
      simp only [decide_eq_true_eq] at hpe
      exact hpe ▸ List.mem_map_of_mem Prod.fst he
    simp only [insertLevel, if_pos hany]
    refine ⟨hkeys ▸ h1, ?_, ?_⟩
    · intro e' he'
      obtain ⟨e, he, hee⟩ := List.mem_map.mp he'
      obtain ⟨hq, hc⟩ := h2 e he
      by_cases hp : e.1 = o.price
      · subst hee
        rw [if_pos hp]
        constructor
        · show e.2.1 + o.quantity = sumQtyAt (hist ++ [o]) e.1
          rw [sumQtyAt_append_single, hq, if_pos hp.symm]
        · show e.2.2 + 1 = countAt (hist ++ [o]) e.1
          rw [countAt_append_single, hc, if_pos hp.symm]
      · subst hee
        rw [if_neg hp]
        constructor
        · rw [sumQtyAt_append_single, if_neg fun h => hp h.symm, add_zero]
          exact hq
        · rw [countAt_append_single, if_neg fun h => hp h.symm, add_zero]
          exact hc
    · intro p
      rw [hkeys, List.map_append, List.mem_append]
      constructor
      · intro hp
        exact Or.inl ((h3 p).mp hp)
      · intro hp
        rcases hp with hp | hp
        · exact (h3 p).mpr hp
        · simp only [List.map_cons, List.map_nil, List.mem_singleton] at hp
          exact hp ▸ hop
  · have hop : o.price ∉ m.map Prod.fst := by
      intro hc
      obtain ⟨e, he, hpe⟩ := List.mem_map.mp hc
      apply hany
      rw [List.any_eq_true]
      exact ⟨e, he, by simp [hpe]⟩
    simp only [insertLevel, if_neg hany]
    refine ⟨?_, ?_, ?_⟩
    · rw [List.map_append]
      simp only [List.map_cons, List.map_nil]
      rw [List.nodup_append]
      exact ⟨h1, List.nodup_singleton _, by simpa using fun hc => hop hc⟩
    · intro e' he'
      rcases List.mem_append.mp he' with he | he
      · obtain ⟨hq, hc⟩ := h2 e' he
        have hne : e'.1 ≠ o.price := by
          intro hc'
          exact hop (hc' ▸ List.mem_map_of_mem Prod.fst he)
        constructor
        · rw [sumQtyAt_append_single, hq, if_neg fun h => hne h.symm, add_zero]
        · rw [countAt_append_single, hc, if_neg fun h => hne h.symm, add_zero]
      · simp only [List.mem_singleton] at he
        subst he
        have h0 : sumQtyAt hist o.price = 0 :=
          sumQtyAt_of_not_mem hist o.price fun hc => hop ((h3 o.price).mpr hc)
        have h0c : countAt hist o.price = 0 := by
          by_contra hcc
          have : (hist.filter fun o' => decide (o'.price = o.price)) ≠ [] := by
            intro hnil
            exact hcc (by simp [countAt, hnil])
          obtain ⟨o', ho'⟩ := List.exists_mem_of_ne_nil _ this
          have := List.mem_filter.mp ho'
          simp only [decide_eq_true_eq] at this
          exact hop ((h3 o.price).mpr (this.2 ▸ List.mem_map_of_mem Order.price this.1))
        constructor
        · show o.quantity = _
          rw [sumQtyAt_append_single, h0, if_pos rfl, zero_add]
        · show 1 = _
          rw [countAt_append_single, h0c, if_pos rfl, zero_add]
    · intro p
      rw [List.map_append, List.map_append, List.mem_append, List.mem_append]
      simp only [List.map_cons, List.map_nil]
      constructor
      · intro hp
        rcases hp with hp | hp
        · exact Or.inl ((h3 p).mp hp)
        · exact Or.inr hp
      · intro hp
        rcases hp with hp | hp
        · exact Or.inl ((h3 p).mpr hp)
        · exact Or.inr hp

theorem foldl_insertLevel_spec :
    ∀ (os : List Order) (m : List (ℚ × ℚ × ℕ)) (hist : List Order),
      (m.map Prod.fst).Nodup →
      (∀ e ∈ m, e.2.1 = sumQtyAt hist e.1 ∧ e.2.2 = countAt hist e.1) →
      (∀ p : ℚ, p ∈ m.map Prod.fst ↔ p ∈ hist.map Order.price) →
      ((os.foldl insertLevel m).map Prod.fst).Nodup ∧
      (∀ e ∈ os.foldl insertLevel m,
          e.2.1 = sumQtyAt (hist ++ os) e.1 ∧ e.2.2 = countAt (hist ++ os) e.1) ∧
      (∀ p : ℚ, p ∈ (os.foldl insertLevel m).map Prod.fst ↔ p ∈ (hist ++ os).map Order.price)
  | [], m, hist, h1, h2, h3 => by
    simp only [List.foldl_nil, List.append_nil]
    exact ⟨h1, h2, h3⟩
  | o :: os, m, hist, h1, h2, h3 => by
    obtain ⟨g1, g2, g3⟩ := insertLevel_spec m hist o h1 h2 h3
    have main := foldl_insertLevel_spec os (insertLevel m o) (hist ++ [o]) g1 g2 g3
    have heq : hist ++ [o] ++ os = hist ++ o :: os := by
      rw [List.append_assoc, List.singleton_append]
    rw [heq] at main
    simp only [List.foldl_cons]
    exact main

theorem priceLevels_spec (os : List Order) :
    ((priceLevels os).map Prod.fst).Nodup ∧
    (∀ e ∈ priceLevels os, e.2.1 = sumQtyAt os e.1 ∧ e.2.2 = countAt os e.1) ∧
    (∀ p : ℚ, p ∈ (priceLevels os).map Prod.fst ↔ p ∈ os.map Order.price) := by
  have := foldl_insertLevel_spec os [] [] (by simp) (by simp) (by simp)
  simpa [priceLevels] using this

theorem withTotals_map_core (acc : ℚ) :
    ∀ ls : List (ℚ × ℚ × ℕ),
      (withTotals acc ls).map (fun l => (l.price, l.quantity, l.count)) = ls
  | [] => rfl
  | e :: rest => by
    simp only [withTotals, List.map_cons]
    rw [withTotals_map_core (acc + e.2.1) rest]

theorem withTotals_total :
    ∀ (ls : List (ℚ × ℚ × ℕ)) (acc : ℚ) (i : ℕ) (l : OrderBookLevel),
      (withTotals acc ls)[i]? = some l →
      l.total = acc + (((withTotals acc ls).take (i + 1)).map OrderBookLevel.quantity).sum
  | [], _, i, l => by intro h; simp [withTotals] at h
  | e :: rest, acc, 0, l => by
    intro h
    simp only [withTotals, List.getElem?_cons_zero, Option.some_inj] at h
    subst h
    simp [withTotals]
  | e :: rest, acc, i + 1, l => by
    intro h
    simp only [withTotals, List.getElem?_cons_succ] at h
    have := withTotals_total rest (acc + e.2.1) i l h
    rw [this]
    simp only [withTotals, List.take_succ_cons, List.map_cons, List.sum_cons]
    ring

theorem withTotals_chain :
    ∀ (ls : List (ℚ × ℚ × ℕ)) (acc : ℚ), (∀ e ∈ ls, 0 ≤ e.2.1) →
      List.Chain' (fun a b : OrderBookLevel => a.total ≤ b.total) (withTotals acc ls)
  | [], _, _ => List.chain'_nil
  | [e], acc, _ => by simp [withTotals]
  | e :: e' :: rest, acc, h => by
    have hrec := withTotals_chain (e' :: rest) (acc + e.2.1)
      fun x hx => h x (List.mem_cons_of_mem _ hx)
    simp only [withTotals] at hrec ⊢
    refine List.Chain'.cons ?_ hrec
    have h0 : 0 ≤ e'.2.1 := h e' (List.mem_cons_of_mem _ (List.mem_cons_self _ _))
    simp only
    linarith

theorem sumQtyAt_nonneg (os : List Order) (p : ℚ) (h : ∀ o ∈ os, 0 ≤ o.quantity) :
    0 ≤ sumQtyAt os p := by
  apply List.sum_nonneg
  intro x hx
  obtain ⟨o, ho, rfl⟩ := List.mem_map.mp hx
  exact h o (List.mem_of_mem_filter ho)

theorem aggregate_core (st : OrderMatcher) (side : Side) :
    (aggregateOrdersByPrice st side).map (fun l => (l.price, l.quantity, l.count))
      = List.insertionSort (levelBefore side) (priceLevels (sideOrders st side)) := by
  rw [aggregate_eq]
  exact withTotals_map_core 0 _

theorem aggregate_prices (st : OrderMatcher) (side : Side) :
    (aggregateOrdersByPrice st side).map OrderBookLevel.price
      = (List.insertionSort (levelBefore side)
          (priceLevels (sideOrders st side))).map Prod.fst := by
  rw [← aggregate_core, List.map_map]
  rfl

theorem mem_aggregate (st : OrderMatcher) (side : Side) (l : OrderBookLevel)
    (hl : l ∈ aggregateOrdersByPrice st side) :
    (l.price, l.quantity, l.count) ∈ priceLevels (sideOrders st side) := by
  have h1 : (l.price, l.quantity, l.count) ∈
      (aggregateOrdersByPrice st side).map (fun l => (l.price, l.quantity, l.count)) :=
    List.mem_map_of_mem _ hl
  rw [aggregate_core] at h1
  exact (List.perm_insertionSort _ _).mem_iff.mp h1

theorem aggregate_entry (st : OrderMatcher) (side : Side) (l : OrderBookLevel)
    (hl : l ∈ aggregateOrdersByPrice st side) :
    l.quantity = sumQtyAt (sideOrders st side) l.price ∧
    l.count = countAt (sideOrders st side) l.price :=
  (priceLevels_spec (sideOrders st side)).2.1 _ (mem_aggregate st side l hl)

theorem aggregate_prices_iff (st : OrderMatcher) (side : Side) (p : ℚ) :
    p ∈ (aggregateOrdersByPrice st side).map OrderBookLevel.price
      ↔ p ∈ (sideOrders st side).map Order.price := by
  rw [aggregate_prices,
    ((List.perm_insertionSort (levelBefore side)
      (priceLevels (sideOrders st side))).map Prod.fst).mem_iff]
  exact (priceLevels_spec (sideOrders st side)).2.2 p

theorem aggregate_sorted (st : OrderMatcher) (side : Side) :
    List.Pairwise (fun a b : OrderBookLevel =>
      levelBefore side (a.price, a.quantity, a.count) (b.price, b.quantity, b.count)
        ∧ a.price ≠ b.price) (aggregateOrdersByPrice st side) := by
  have hs : List.Pairwise (levelBefore side)
      (List.insertionSort (levelBefore side) (priceLevels (sideOrders st side))) :=
    List.sorted_insertionSort (levelBefore side) (priceLevels (sideOrders st side))
  have hnodup : ((List.insertionSort (levelBefore side)
      (priceLevels (sideOrders st side))).map Prod.fst).Nodup :=
    ((List.perm_insertionSort _ _).map Prod.fst).nodup_iff.mpr
      (priceLevels_spec (sideOrders st side)).1
  have hne : List.Pairwise (fun a b : ℚ × ℚ × ℕ => a.1 ≠ b.1)
      (List.insertionSort (levelBefore side) (priceLevels (sideOrders st side))) :=
    List.pairwise_map.mp hnodup
  have hpair := hs.and hne
  rw [← aggregate_core] at hpair
  exact List.pairwise_map.mp hpair

theorem aggregate_total (st : OrderMatcher) (side : Side) (i : ℕ) (l : OrderBookLevel)
    (h : (aggregateOrdersByPrice st side)[i]? = some l) :
    l.total = (((aggregateOrdersByPrice st side).take (i + 1)).map
        OrderBookLevel.quantity).sum := by
  rw [aggregate_eq] at h
  have := withTotals_total _ 0 i l h
  rw [aggregate_eq, this, zero_add]

theorem aggregate_chain (st : OrderMatcher) (side : Side)
    (hq : ∀ e ∈ st.orders, 0 < e.2.quantity) :
    List.Chain' (fun a b : OrderBookLevel => a.total ≤ b.total)
      (aggregateOrdersByPrice st side) := by
  rw [aggregate_eq]
  apply withTotals_chain
  intro e he
  have hmem := (List.perm_insertionSort (levelBefore side)
    (priceLevels (sideOrders st side))).mem_iff.mp he
  rw [((priceLevels_spec (sideOrders st side)).2.1 e hmem).1]
  apply sumQtyAt_nonneg
  intro o ho
  obtain ⟨e', he', rfl⟩ := List.mem_map.mp (List.mem_of_mem_filter ho)
  exact le_of_lt (hq e' he')

theorem bestOf_take20 (ls : List OrderBookLevel) : bestOf (ls.take 20) = bestOf ls := by
  cases ls <;> rfl

/-- C6: the book snapshot groups each side's resting orders by exact price
into levels carrying the summed quantity and the count of contributing
orders, with every resting price represented; bid levels are sorted strictly
descending and ask levels strictly ascending by price; each level's
cumulative total is the sum of its own and all preceding (better-priced)
levels' quantities, hence non-decreasing along each side whenever resting
quantities are positive; and the snapshot keeps only the top 20 levels per
side. -/
theorem c6_book_aggregation (st : OrderMatcher) :
    ((getOrderBook st).bids = (aggregateOrdersByPrice st .buy).take 20 ∧
      (getOrderBook st).asks = (aggregateOrdersByPrice st .sell).take 20) ∧
    (∀ l ∈ aggregateOrdersByPrice st .buy,
        l.quantity = sumQtyAt (sideOrders st .buy) l.price ∧
        l.count = countAt (sideOrders st .buy) l.price) ∧
    (∀ l ∈ aggregateOrdersByPrice st .sell,
        l.quantity = sumQtyAt (sideOrders st .sell) l.price ∧
        l.count = countAt (sideOrders st .sell) l.price) ∧
    (∀ p : ℚ, p ∈ (aggregateOrdersByPrice st .buy).map OrderBookLevel.price
        ↔ p ∈ (sideOrders st .buy).map Order.price) ∧
    (∀ p : ℚ, p ∈ (aggregateOrdersByPrice st .sell).map OrderBookLevel.price
        ↔ p ∈ (sideOrders st .sell).map Order.price) ∧
    List.Pairwise (fun a b : OrderBookLevel => b.price < a.price)
      (aggregateOrdersByPrice st .buy) ∧
    List.Pairwise (fun a b : OrderBookLevel => a.price < b.price)
      (aggregateOrdersByPrice st .sell) ∧
    (∀ (i : ℕ) (l : OrderBookLevel), (aggregateOrdersByPrice st .buy)[i]? = some l →
        l.total = (((aggregateOrdersByPrice st .buy).take (i + 1)).map
            OrderBookLevel.quantity).sum) ∧
    (∀ (i : ℕ) (l : OrderBookLevel), (aggregateOrdersByPrice st .sell)[i]? = some l →
        l.total = (((aggregateOrdersByPrice st .sell).take (i + 1)).map
            OrderBookLevel.quantity).sum) ∧
    ((∀ e ∈ st.orders, 0 < e.2.quantity) →
      List.Chain' (fun a b : OrderBookLevel => a.total ≤ b.total)
          (aggregateOrdersByPrice st .buy) ∧
        List.Chain' (fun a b : OrderBookLevel => a.total ≤ b.total)
          (aggregateOrdersByPrice st .sell)) := by
  refine ⟨⟨rfl, rfl⟩, fun l hl => aggregate_entry st .buy l hl,
    fun l hl => aggregate_entry st .sell l hl,
    fun p => aggregate_prices_iff st .buy p, fun p => aggregate_prices_iff st .sell p,
    ?_, ?_, fun i l h => aggregate_total st .buy i l h,
    fun i l h => aggregate_total st .sell i l h,
    fun hq => ⟨aggregate_chain st .buy hq, aggregate_chain st .sell hq⟩⟩
  · exact (aggregate_sorted st .buy).imp fun h =>
      lt_of_le_of_ne h.1 fun heq => h.2 heq.symm
  · exact (aggregate_sorted st .sell).imp fun h =>
      lt_of_le_of_ne h.1 h.2

/-- Witness for C6 on the concrete one-ask book. -/
theorem c6_book_aggregation_witness :
    ((getOrderBook wState).bids = (aggregateOrdersByPrice wState .buy).take 20 ∧
      (getOrderBook wState).asks = (aggregateOrdersByPrice wState .sell).take 20) ∧
    (∀ l ∈ aggregateOrdersByPrice wState .buy,
        l.quantity = sumQtyAt (sideOrders wState .buy) l.price ∧
        l.count = countAt (sideOrders wState .buy) l.price) ∧
    (∀ l ∈ aggregateOrdersByPrice wState .sell,
        l.quantity = sumQtyAt (sideOrders wState .sell) l.price ∧
        l.count = countAt (sideOrders wState .sell) l.price) ∧
    (∀ p : ℚ, p ∈ (aggregateOrdersByPrice wState .buy).map OrderBookLevel.price
        ↔ p ∈ (sideOrders wState .buy).map Order.price) ∧
    (∀ p : ℚ, p ∈ (aggregateOrdersByPrice wState .sell).map OrderBookLevel.price
        ↔ p ∈ (sideOrders wState .sell).map Order.price) ∧
    List.Pairwise (fun a b : OrderBookLevel => b.price < a.price)
      (aggregateOrdersByPrice wState .buy) ∧
    List.Pairwise (fun a b : OrderBookLevel => a.price < b.price)
      (aggregateOrdersByPrice wState .sell) ∧
    (∀ (i : ℕ) (l : OrderBookLevel), (aggregateOrdersByPrice wState .buy)[i]? = some l →
        l.total = (((aggregateOrdersByPrice wState .buy).take (i + 1)).map
            OrderBookLevel.quantity).sum) ∧
    (∀ (i : ℕ) (l : OrderBookLevel), (aggregateOrdersByPrice wState .sell)[i]? = some l →
        l.total = (((aggregateOrdersByPrice wState .sell).take (i + 1)).map
            OrderBookLevel.quantity).sum) ∧
    ((∀ e ∈ wState.orders, 0 < e.2.quantity) →
      List.Chain' (fun a b : OrderBookLevel => a.total ≤ b.total)
          (aggregateOrdersByPrice wState .buy) ∧
        List.Chain' (fun a b : OrderBookLevel => a.total ≤ b.total)
          (aggregateOrdersByPrice wState .sell)) :=
  c6_book_aggregation wState

/-- The engine state refuting C7 as stated: one resting bid priced exactly 0
and one resting ask at 100 — both sides of the book are non-empty, yet the
code's JavaScript-truthiness guard (`bestBid && bestAsk`) reports mid-price 0
and spread 0. -/
def cState : OrderMatcher :=
  ⟨[(0, ⟨"zb", 0, 1, .buy, .limit, 0⟩), (1, ⟨"za", 100, 1, .sell, .limit, 0⟩)], [], 0, 2⟩

/-- Counterexample to C7 as stated: on `cState` both book sides are
non-empty, but the mid-price is not the mean of the best prices (it is 0, not
50) and the spread is not ask minus bid (it is 0, not 100). -/
theorem c7_counterexample :
    (getOrderBook cState).bids ≠ [] ∧ (getOrderBook cState).asks ≠ [] ∧
    (getOrderBook cState).midPrice
      ≠ (bestOf (getOrderBook cState).bids + bestOf (getOrderBook cState).asks) / 2 ∧
    (getOrderBook cState).spread
      ≠ bestOf (getOrderBook cState).asks - bestOf (getOrderBook cState).bids := by
  have hb : bestOf (getOrderBook cState).bids = 0 := rfl
  have ha : bestOf (getOrderBook cState).asks = 100 := rfl
  have hm : (getOrderBook cState).midPrice = 0 := rfl
  have hsp : (getOrderBook cState).spread = 0 := rfl
  refine ⟨by decide, by decide, ?_, ?_⟩
  · rw [hm, hb, ha]
    norm_num
  · rw [hsp, hb, ha]
    norm_num

/-- C7 (amended): best bid/ask are the first level's price per side (0 when
the side is empty); mid-price is the arithmetic mean of best bid and best ask
and spread is best ask minus best bid whenever **both best prices are
nonzero** — a side whose best price is exactly 0 is treated as missing
(JavaScript falsiness), and then mid-price and spread are 0. The snapshot is
a pure read: `getOrderBook` takes the state and returns only a book, so it
cannot mutate the resting set or the trade log. -/
theorem c7_best_mid_spread (st : OrderMatcher) :
    (getOrderBook st).midPrice
      = (if bestOf (getOrderBook st).bids ≠ 0 ∧ bestOf (getOrderBook st).asks ≠ 0
         then (bestOf (getOrderBook st).bids + bestOf (getOrderBook st).asks) / 2
         else 0) ∧
    (getOrderBook st).spread
      = (if bestOf (getOrderBook st).asks ≠ 0 ∧ bestOf (getOrderBook st).bids ≠ 0
         then bestOf (getOrderBook st).asks - bestOf (getOrderBook st).bids
         else 0) := by
  have hbids : (getOrderBook st).bids = (aggregateOrdersByPrice st .buy).take 20 := rfl
  have hasks : (getOrderBook st).asks = (aggregateOrdersByPrice st .sell).take 20 := rfl
  rw [hbids, hasks, bestOf_take20, bestOf_take20]
  exact ⟨rfl, rfl⟩

/-- Witness for C10 on the concrete book, checking the generated id. -/
theorem c10_sequence_counter_witness :
    (addOrder wState wBuy 7).2.sequenceId
        = wState.sequenceId + (addOrder wState wBuy 7).1.1.length ∧
    (∀ (i : ℕ) (t : Trade), (addOrder wState wBuy 7).1.1[i]? = some t →
        t.id = "trade_" ++ toString (wState.sequenceId + i)) ∧
    (clear wState).sequenceId = wState.sequenceId ∧ (clear wState).orders = [] ∧
      (clear wState).trades = [] :=
  c10_sequence_counter wState wBuy 7

end Exchange
